import Mathlib

/-!
Verification of the traversal/diff core of duplicity (files
`duplicity/globmatch.py` and `duplicity/lazy.py`) against its
natural-language specification.

The Python code is shallowly embedded: strings are handled as `List Char`
where convenient, the regular expressions produced by `glob_to_regex` are
embedded as lists of atoms (the function only ever emits a concatenation of
the five kinds of fragments below), Python exceptions become `Except` /
`Option` results, and the stateful iterator classes become explicit state
machines.
-/

set_option autoImplicit false

namespace Duplicity

/-! ## Glob compiler (`duplicity/globmatch.py`) -/

/-- Errors raised by the glob engine.  `globbing msg` embeds
`GlobbingError(msg)`; `indexError` embeds the `IndexError` that
`glob_str[-1]` raises on an empty glob string; `reError` embeds the
`re.error` that `re.compile` raises on a malformed regular expression
(the only way `glob_to_regex` can produce one is a character class with a
reversed range such as `[z-a]`). -/
inductive GlobErr where
  | globbing (msg : String)
  | indexError
  | reError
  deriving DecidableEq

instance {ε α : Type} [DecidableEq ε] [DecidableEq α] :
    DecidableEq (Except ε α) := fun a b =>
  match a, b with
  | .ok x, .ok y =>
    if h : x = y then .isTrue (by rw [h])
    else .isFalse (by intro hc; cases hc; exact h rfl)
  | .error x, .error y =>
    if h : x = y then .isTrue (by rw [h])
    else .isFalse (by intro hc; cases hc; exact h rfl)
  | .ok _, .error _ => .isFalse (by intro hc; cases hc)
  | .error _, .ok _ => .isFalse (by intro hc; cases hc)

/-- One fragment of the regular expression string built by `glob_to_regex`.
The Python function only ever concatenates: `.*` (from `**`), `[^/]*`
(from `*`), `[^/]` (from `?`), a character class `[stuff]` / `[^stuff]`
(from a bracket expression), and single escaped literal characters
(`re.escape(c)`, and the literal `\[` emitted for an unmatched `[`). -/
inductive RAtom where
  | dotStar
  | starNoSlash
  | oneNoSlash
  | cls (neg : Bool) (stuff : List Char)
  | lit (c : Char)
  deriving DecidableEq

/-- Membership of a character in the body of a regex character class, with
`a-b` ranges active (as they are in Python's `re`) and a `-` in first or
last position taken literally.  The `stuff.replace('\\', '\\\\')` done by
the Python code makes every backslash in the class body a literal
backslash, which is what plain list membership gives us here. -/
def clsMem : List Char → Char → Bool
  | a :: '-' :: b :: rest, c =>
    (decide (a ≤ c) && decide (c ≤ b)) || clsMem rest c
  | a :: rest, c => (a == c) || clsMem rest c
  | [], _ => false

/-- Validity of a class body under `re.compile`: Python's regex parser
walks the body with the same greedy `a-b` range recognition as `clsMem`
and raises `re.error` ("bad character range") whenever a recognised range
has its endpoints reversed, e.g. `[z-a]`.  (The backslash doubling done by
`glob_to_regex` means an escape can only ever denote a literal backslash,
so no other `re.error` can arise from a class body.) -/
def clsOk : List Char → Bool
  | a :: '-' :: b :: rest => decide (a ≤ b) && clsOk rest
  | _ :: rest => clsOk rest
  | [] => true

/-- Does `re.compile` accept the atom?  Only a character class can be
rejected. -/
def atomOk : RAtom → Bool
  | .cls _ stuff => clsOk stuff
  | _ => true

/-- Does `re.compile` accept the whole regex built from the atoms? -/
def atomsOk (rs : List RAtom) : Bool :=
  rs.all atomOk

/-- `j = i; if pat[j] in '!^': j += 1; if pat[j] == ']': j += 1` — how many
leading characters of the bracket body are skipped before scanning for the
closing `]`. -/
def bracketSkip : List Char → Nat
  | [] => 0
  | c :: cs =>
    if c = '!' ∨ c = '^' then
      match cs with
      | ']' :: _ => 2
      | _ => 1
    else if c = ']' then 1
    else 0

/-- Index of the first `]` in a character list, if any
(the `while j < n and pat[j] != ']'` scan). -/
def findRB : List Char → Option Nat
  | [] => none
  | c :: cs => if c = ']' then some 0 else (findRB cs).map (· + 1)

/-- `if stuff[0] in '!^': stuff = '^' + stuff[1:]`, then `[stuff]`. -/
def mkCls (stuff : List Char) : RAtom :=
  match stuff with
  | c :: rest => if c = '!' ∨ c = '^' then .cls true rest else .cls false stuff
  | [] => .cls false []

/-- Embedding of `glob_to_regex`: the element mapping `** → .*` (checked
before the single `*`), `* → [^/]*`, `? → [^/]`, bracket expressions with
an unmatched `]` making the `[` literal, and every other character an
escaped literal. -/
def globToRegexF : Nat → List Char → List RAtom
  | _, [] => []
  | 0, _ :: _ => []
  | fuel + 1, c :: rest =>
    if c = '*' then
      if rest.head? = some '*' then .dotStar :: globToRegexF fuel rest.tail
      else .starNoSlash :: globToRegexF fuel rest
    else if c = '?' then .oneNoSlash :: globToRegexF fuel rest
    else if c = '[' then
      match findRB (rest.drop (bracketSkip rest)) with
      | none => .lit '[' :: globToRegexF fuel rest
      | some m =>
        mkCls (rest.take (bracketSkip rest + m)) ::
          globToRegexF fuel (rest.drop (bracketSkip rest + m + 1))
    else .lit c :: globToRegexF fuel rest

/-- Embedding of `glob_to_regex` proper.  The Python `while i < n` loop
advances `i` by at least one per iteration, so `pat.length` steps always
suffice; the fuel only makes that termination argument structural. -/
def globToRegex (pat : List Char) : List RAtom :=
  globToRegexF pat.length pat

/-- Does the atom list match the whole character list?  This is the
semantics, under `re.S`, of the concatenation of fragments produced by
`glob_to_regex` (there is no top-level alternation in those fragments). -/
def matchAtoms : List RAtom → List Char → Bool
  | [], s => s.isEmpty
  | .lit c :: rs, s =>
    match s with
    | [] => false
    | d :: ds => c == d && matchAtoms rs ds
  | .oneNoSlash :: rs, s =>
    match s with
    | [] => false
    | d :: ds => d != '/' && matchAtoms rs ds
  | .cls neg stuff :: rs, s =>
    match s with
    | [] => false
    | d :: ds => (if neg then !clsMem stuff d else clsMem stuff d) && matchAtoms rs ds
  | .starNoSlash :: rs, s =>
    (List.range (s.length + 1)).any fun k =>
      (s.take k).all (fun d => d != '/') && matchAtoms rs (s.drop k)
  | .dotStar :: rs, s =>
    (List.range (s.length + 1)).any fun k => matchAtoms rs (s.drop k)

/-- Does `($|/)` match at this point of the subject?  Python's `$`
(without `re.M`; `re.S` does not affect it) matches at the end of the
string and also just before a newline that ends the string, so the
alternative succeeds on the empty remainder, on the remainder `"\n"`, and
on any remainder starting with `/`. -/
def dollarOrSlash : List Char → Bool
  | [] => true
  | d :: t => d == '/' || (d == '\n' && t.isEmpty)

/-- Does `$` alone match at this point of the subject?  End of string, or
a single trailing newline. -/
def dollarOnly : List Char → Bool
  | [] => true
  | d :: t => d == '\n' && t.isEmpty

/-- Semantics of `re.compile("^%s($|/)" % r, re.S).match(name)`: a Python
`match` is anchored on the left only, so the compiled match-regex accepts
`name` exactly when some prefix of `name` matches `r` and `($|/)` matches
the remainder. -/
def globCompMatch (atoms : List RAtom) (s : List Char) : Bool :=
  (List.range (s.length + 1)).any fun k =>
    matchAtoms atoms (s.take k) && dollarOrSlash (s.drop k)

/-- `glob_str.split("/")` on a character list. -/
def splitSlash : List Char → List (List Char)
  | [] => [[]]
  | c :: cs =>
    match splitSlash cs with
    | [] => [[]]
    | p :: ps => if c = '/' then [] :: p :: ps else (c :: p) :: ps

/-- `"/".join(parts)` on character lists. -/
def joinSlash : List (List Char) → List Char
  | [] => []
  | [p] => p
  | p :: ps => p ++ '/' :: joinSlash ps

/-- `glob_str[:glob_str.find("**") + 2]` guarded by `find("**") != -1`:
truncate the pattern just after the first recursive wildcard, if there is
one. -/
def truncDS : List Char → List Char
  | '*' :: '*' :: _ => ['*', '*']
  | c :: rest => c :: truncDS rest
  | [] => []

/-- Embedding of `_glob_get_prefix_regexs`: split on `/`, reject an empty
interior component, build one regex per non-empty prefix of the component
list, mapping an empty first prefix to the root `/`. -/
def globGetPfxRegexs (g : List Char) : Except GlobErr (List (List RAtom)) :=
  let parts := splitSlash g
  if ((parts.drop 1).dropLast).contains [] then
    .error (.globbing ("Consecutive '/'s found in globbing string " ++ ⟨g⟩))
  else
    let pfxs := (List.range parts.length).map fun i => joinSlash (parts.take (i + 1))
    let pfxs :=
      match pfxs with
      | [] => []
      | p :: ps => (if p = [] then ['/'] else p) :: ps
    .ok (pfxs.map globToRegex)

/-- Semantics of `re.compile("^(%s)$" % "|".join(rs), re.S).match(name)`:
some prefix regex must match a prefix of the name at which the final `$`
then succeeds (end of string, or just before one trailing newline). -/
def scanMatch (regexs : List (List RAtom)) (s : List Char) : Bool :=
  regexs.any fun r =>
    (List.range (s.length + 1)).any fun k =>
      matchAtoms r (s.take k) && dollarOnly (s.drop k)

/-- The tail of `path_matches_glob` once the trailing `/` has been
stripped: compile the match-regex (`re.compile` raises `re.error` on a
reversed class range), truncate at the first `**`, build the
ancestor-prefix regexes (which can raise `GlobbingError`), compile the
joined scan regex (`re.error` again possible), then decide.  `inc` is the
`include` argument (0 = exclude polarity, 1 = include polarity). -/
def pathMatchesGlobCore (name : String) (isdir : Bool) (g : String)
    (matchOnlyDirs : Bool) (inc : Nat) : Except GlobErr (Option Nat) :=
  let globAtoms := globToRegex g.data
  if atomsOk globAtoms then
    let g2 := truncDS g.data
    match globGetPfxRegexs g2 with
    | .error e => .error e
    | .ok pfxRegexs =>
      if pfxRegexs.all atomsOk then
        .ok
          (if matchOnlyDirs && !isdir then none
           else if globCompMatch globAtoms name.data then some inc
           else if inc == 1 && scanMatch pfxRegexs name.data then some 2
           else none)
      else .error .reError
  else .error .reError

/-- Embedding of `path_matches_glob(path, glob_str, include)`.  The path
is represented by its matchable `name` and its `isdir()` predicate.  The
guard `glob_str != "/" and glob_str[-1] == "/"` evaluates `glob_str[-1]`,
which raises `IndexError` on the empty string. -/
def pathMatchesGlob (name : String) (isdir : Bool) (globStr : String)
    (inc : Nat) : Except GlobErr (Option Nat) :=
  if globStr = "/" then pathMatchesGlobCore name isdir globStr false inc
  else if globStr = "" then .error .indexError
  else if globStr.back = '/' then
    pathMatchesGlobCore name isdir (globStr.dropRight 1) true inc
  else pathMatchesGlobCore name isdir globStr false inc

/-- A pattern with no glob metacharacters: no `?`, no `*` (hence no `**`),
no `[`. -/
def noMeta (pat : List Char) : Bool :=
  pat.all fun c => !(c == '?' || c == '*' || c == '[')

/-! ## Generic stream multiplexer (`Iter.multiplex` in `duplicity/lazy.py`)

The closure state of `Iter.multiplex` is `buffer`, `forkposition`, the
remaining source iterator, and the one-element list `called_closing_func`;
`get_next` is its only transition.  Calls to `closing_func` and
`final_func` are recorded as events. -/

structure MuxState (α : Type) where
  source : List α
  buffer : List α
  forkposition : List Int
  calledClosingFunc : Bool
  deriving DecidableEq

inductive MuxEvent (α : Type) where
  | closing
  | final (a : α)
  deriving DecidableEq

/-- Result of one `get_next` call: a value, `StopIteration`, or an
uncaught exception (`IndexError` from a bad buffer subscript, or an
`AssertionError`). -/
inductive MuxOut (α : Type) where
  | val (a : α)
  | stop
  | err
  deriving DecidableEq

/-- Python list subscript `l[i]`, with negative indices counting from the
end and `none` for `IndexError`. -/
def pyGet {α : Type} (l : List α) (i : Int) : Option α :=
  if 0 ≤ i then l.get? i.toNat
  else if 0 ≤ (l.length : Int) + i then l.get? ((l.length : Int) + i).toNat
  else none

/-- The part of `get_next` after the optional refill from the source:
fetch `buffer[forkposition[fork_num]]`, decrement the fork's position, and
evict the last buffer slot (calling `final_func`) when no fork needs it,
after the `assert forkposition[fork_num] == blen - 2` check. -/
def muxFetch {α : Type} (s : MuxState α) (forkNum : Nat) :
    MuxOut α × MuxState α × List (MuxEvent α) :=
  match s.forkposition.get? forkNum with
  | none => (.err, s, [])
  | some pos =>
    match pyGet s.buffer pos with
    | none => (.err, s, [])
    | some rv =>
      let fp2 := s.forkposition.set forkNum (pos - 1)
      let blen : Int := (s.buffer.length : Int)
      if (blen - 1) ∈ fp2 then (.val rv, { s with forkposition := fp2 }, [])
      else
        match pyGet s.buffer (blen - 1) with
        | none => (.err, { s with forkposition := fp2 }, [])
        | some lastElem =>
          if fp2.get? forkNum = some (blen - 2) then
            (.val rv,
              { s with buffer := s.buffer.dropLast, forkposition := fp2 },
              [.final lastElem])
          else (.err, { s with forkposition := fp2 }, [])

/-- Embedding of `get_next(fork_num)`.  When the fork is at the `-1`
marker and the source is exhausted, the code guards the `closing_func`
call with `forkposition == starting_forkposition and not
called_closing_func[0]` — and then assigns `called_closing_func[0] =
None`, i.e. it stores the *falsy* value again, faithfully embedded here
as `calledClosingFunc := false`. -/
def getNext {α : Type} (s : MuxState α) (forkNum : Nat) :
    MuxOut α × MuxState α × List (MuxEvent α) :=
  match s.forkposition.get? forkNum with
  | none => (.err, s, [])
  | some pos =>
    if pos = -1 then
      match s.source with
      | [] =>
        if s.forkposition = List.replicate s.forkposition.length (-1) ∧
            s.calledClosingFunc = false then
          (.stop, { s with calledClosingFunc := false }, [.closing])
        else (.stop, s, [])
      | x :: rest =>
        muxFetch
          { s with
            source := rest
            buffer := x :: s.buffer
            forkposition := s.forkposition.map (· + 1) }
          forkNum
    else muxFetch s forkNum

/-- Two forks, empty source, nothing consumed yet. -/
def muxEmpty2 : MuxState Nat := ⟨[], [], [-1, -1], false⟩

/-- Two forks over the one-element source `[5]`. -/
def muxOne2 : MuxState Nat := ⟨[5], [], [-1, -1], false⟩

/-- `muxOne2` after fork 0 consumed the element. -/
def muxOne2a : MuxState Nat := (getNext muxOne2 0).2.1

/-- `muxOne2a` after fork 1 also consumed it (forks level again). -/
def muxOne2b : MuxState Nat := (getNext muxOne2a 1).2.1

/-! ## Optimized two-fork multiplexer (`IterMultiplex2`) -/

structure M2State (α : Type) where
  aLeadingBy : Int
  buffer : List α
  source : List α
  deriving DecidableEq

/-- `IterMultiplex2.__init__`. -/
def m2Init {α : Type} (orig : List α) : M2State α := ⟨0, [], orig⟩

/-- One `next()` on the iterator returned by `yielda`: if `a_leading_by
>= 0`, pull a fresh element from the source (None on its exhaustion) and
append it to the buffer, else pop the front of the buffer; then increment
`a_leading_by` and yield. -/
def stepA {α : Type} (s : M2State α) : Option (α × M2State α) :=
  if 0 ≤ s.aLeadingBy then
    match s.source with
    | [] => none
    | x :: rest => some (x, ⟨s.aLeadingBy + 1, s.buffer ++ [x], rest⟩)
  else
    match s.buffer with
    | [] => none
    | x :: rest => some (x, ⟨s.aLeadingBy + 1, rest, s.source⟩)

/-- One `next()` on the iterator returned by `yieldb` (mirror image). -/
def stepB {α : Type} (s : M2State α) : Option (α × M2State α) :=
  if s.aLeadingBy ≤ 0 then
    match s.source with
    | [] => none
    | x :: rest => some (x, ⟨s.aLeadingBy - 1, s.buffer ++ [x], rest⟩)
  else
    match s.buffer with
    | [] => none
    | x :: rest => some (x, ⟨s.aLeadingBy - 1, rest, s.source⟩)

/-- Drive the two forks through a list of requests (`true` = fork a,
`false` = fork b), starting from state `s` with `ca`/`cb` elements
already consumed by each fork.  Returns the elements yielded to each fork
and the trace of intermediate states paired with the consumption counts;
a request against an exhausted fork changes nothing. -/
def runM2 {α : Type} : M2State α → Nat → Nat → List Bool →
    List α × List α × List (M2State α × Nat × Nat)
  | _, _, _, [] => ([], [], [])
  | s, ca, cb, true :: rs =>
    match stepA s with
    | some (x, s') =>
      let r := runM2 s' (ca + 1) cb rs
      (x :: r.1, r.2.1, (s', ca + 1, cb) :: r.2.2)
    | none =>
      let r := runM2 s ca cb rs
      (r.1, r.2.1, (s, ca, cb) :: r.2.2)
  | s, ca, cb, false :: rs =>
    match stepB s with
    | some (x, s') =>
      let r := runM2 s' ca (cb + 1) rs
      (r.1, x :: r.2.1, (s', ca, cb + 1) :: r.2.2)
    | none =>
      let r := runM2 s ca cb rs
      (r.1, r.2.1, (s, ca, cb) :: r.2.2)

/-- The canonical reachable state of `IterMultiplex2` once fork a has
consumed `a` elements and fork b has consumed `b` elements of `orig`. -/
def m2Mk {α : Type} (orig : List α) (a b : Nat) : M2State α :=
  ⟨(a : Int) - (b : Int), (orig.take (max a b)).drop (min a b),
    orig.drop (max a b)⟩

/-! ## Tree reducer (`IterTreeReducer` / `ITRBranch` in `duplicity/lazy.py`)

An index is a tuple of path components, compared lexicographically
(Python tuple comparison).  Branch hooks are caller code; we model the
reducer generically over an oracle that fixes, per index, whether
`can_fast_process` answers true and whether the `start_process` /
`fast_process` / `end_process` hooks raise the (caught) recoverable
error.  Every hook invocation performed by the reducer is recorded as an
event, and branches are identified by the order of their creation
(`id 0` is `root_branch`). -/

abbrev Index := List String

/-- Python `<` on strings: lexicographic by code point, a strict prefix
is smaller. -/
def strLt : List Char → List Char → Bool
  | [], [] => false
  | [], _ :: _ => true
  | _ :: _, [] => false
  | a :: as, b :: bs =>
    if a.toNat < b.toNat then true
    else if b.toNat < a.toNat then false
    else strLt as bs

/-- Python `<=` on component tuples: lexicographic, a strict prefix is
smaller. -/
def idxLe : Index → Index → Bool
  | [], _ => true
  | _ :: _, [] => false
  | a :: as, b :: bs =>
    if strLt a.data b.data then true
    else if strLt b.data a.data then false
    else idxLe as bs

/-- A branch's per-instance state: the `ITRBranch` attributes the reducer
reads and writes, plus the identity `id` used to track it in the event
trace. -/
structure Branch where
  id : Nat
  base_index : Option Index := none
  start_successful : Bool := false
  caught_exception : Bool := false
  finished : Bool := false
  deriving DecidableEq

/-- Hook invocations and log lines, in order.  `start`/`endp`/`merge`/
`fast` record `start_process`, `end_process`, `branch_process` (child,
parent) and `fast_process`; `warn` is the out-of-order warning; `skip` is
`log_prev_error`. -/
inductive Event where
  | start (id : Nat) (idx : Index)
  | endp (id : Nat)
  | merge (child parent : Nat)
  | fast (id : Nat) (idx : Index)
  | warn
  | skip (id : Nat) (idx : Index)
  deriving DecidableEq

/-- Deterministic model of the caller-supplied branch class: whether
`can_fast_process` accepts an index, and whether each hook raises the
recoverable error that `robust.check_common_error` converts into
`caught_exception` via `on_error`. -/
structure HookOracle where
  canFast : Index → Bool
  startFails : Index → Bool
  fastFails : Index → Bool
  endFails : Index → Bool

/-- The all-stub branch class: `can_fast_process` answers None and no
hook ever raises (the `ITRBranch` defaults). -/
def noopOracle : HookOracle :=
  ⟨fun _ => false, fun _ => false, fun _ => false, fun _ => false⟩

/-- `IterTreeReducer` state.  `branches` keeps the innermost branch FIRST
(Python keeps it last, at `branches[-1]`); `events` is the ghost trace of
hook invocations and `nextId` the next fresh branch identity. -/
structure ITRState where
  index : Option Index := none
  branches : List Branch := [{ id := 0 }]
  nextId : Nat := 1
  parentMap : List (Option Nat) := [none]
  events : List Event := []
  deriving DecidableEq

/-- The freshly initialized reducer. -/
def itrInit : ITRState := {}

/-- `process_w_branch`: run `start_process` under the error boundary, set
`start_successful` unless it raised, and record the base index. -/
def processWBranch (o : HookOracle) (idx : Index) (b : Branch) :
    Branch × List Event :=
  let b1 := if o.startFails idx then { b with caught_exception := true } else b
  let b2 := if b1.caught_exception then b1 else { b1 with start_successful := true }
  ({ b2 with base_index := some idx }, [.start b.id idx])

/-- `ITRBranch.call_end_proc`: flag a fault when already finished or not
started successfully, run `end_process` under the error boundary, then
mark finished. -/
def callEndProc (o : HookOracle) (b : Branch) : Branch × List Event :=
  let b1 := if b.finished || !b.start_successful then
    { b with caught_exception := true } else b
  let b2 := if o.endFails (b1.base_index.getD []) then
    { b1 with caught_exception := true } else b1
  ({ b2 with finished := true }, [.endp b.id])

/-- Result of `finish_branches`: an uncaught exception (pop or subscript
on an empty list, or `len(None)`), "out of the entire tree" (Python
`None`), or the surviving stack. -/
inductive FBRes where
  | crash
  | out (evs : List Event)
  | ok (brs : List Branch) (evs : List Event)

/-- `IterTreeReducer.finish_branches(index)`: close and merge innermost
branches until the top branch's base index is a component-prefix of
`index`, or the stack empties ("out of the entire tree"). -/
def finishBranches (o : HookOracle) (idx : Index) : List Branch → FBRes
  | [] => .crash
  | b :: rest =>
    match b.base_index with
    | none => .crash
    | some base =>
      if base = idx.take base.length then .ok (b :: rest) []
      else
        let p := callEndProc o b
        match rest with
        | [] => .out p.2
        | nb :: rs =>
          match finishBranches o idx (nb :: rs) with
          | .crash => .crash
          | .out evs => .out (p.2 ++ [.merge b.id nb.id] ++ evs)
          | .ok brs evs => .ok brs (p.2 ++ [.merge b.id nb.id] ++ evs)

/-- The loop of `IterTreeReducer.Finish`: pop, close, merge into the new
top, until the stack empties; `none` is the `IndexError` of popping an
empty stack. -/
def finishLoop (o : HookOracle) : List Branch → Option (List Event)
  | [] => none
  | b :: rest =>
    let p := callEndProc o b
    match rest with
    | [] => some p.2
    | nb :: rs =>
      match finishLoop o (nb :: rs) with
      | none => none
      | some evs => some (p.2 ++ [.merge b.id nb.id] ++ evs)

/-- `IterTreeReducer.Finish`. -/
def finishITR (o : HookOracle) (s : ITRState) : Option ITRState :=
  match finishLoop o s.branches with
  | none => none
  | some evs => some { s with branches := [], events := s.events ++ evs }

/-- `IterTreeReducer.__call__(index, ...)`: `some (s, true)` models a
`1` return, `some (s, false)` a `None` return ("no longer in the main
tree"), and `none` an uncaught exception.  On the very first call the
stack holds exactly `root_branch`. -/
def itrCall (o : HookOracle) (s : ITRState) (idx : Index) :
    Option (ITRState × Bool) :=
  match s.index with
  | none =>
    match s.branches with
    | [root] =>
      let p := processWBranch o idx root
      some ({ s with
        branches := [p.1]
        index := some idx
        events := s.events ++ p.2 }, true)
    | _ => none
  | some prev =>
    if idxLe idx prev then
      some ({ s with events := s.events ++ [.warn] }, true)
    else
      match finishBranches o idx s.branches with
      | .crash => none
      | .out evs =>
        some ({ s with branches := [], events := s.events ++ evs }, false)
      | .ok [] _ => none
      | .ok (last :: rest) evs =>
        if last.start_successful then
          if o.canFast idx then
            let last' := if o.fastFails idx then
              { last with caught_exception := true } else last
            some ({ s with
              branches := last' :: rest
              index := some idx
              events := s.events ++ evs ++ [.fast last.id idx] }, true)
          else
            let nb : Branch := { id := s.nextId }
            let p := processWBranch o idx nb
            some ({ s with
              branches := p.1 :: last :: rest
              index := some idx
              nextId := s.nextId + 1
              parentMap := s.parentMap ++ [some last.id]
              events := s.events ++ evs ++ p.2 }, true)
        else
          some ({ s with
            branches := last :: rest
            index := some idx
            events := s.events ++ evs ++ [.skip last.id idx] }, true)

/-- Feed the entries one at a time; abort (`none`) if a call does not
return true, since the protocol of the claim — keep feeding, then call
`Finish` — cannot complete normally beyond that point (`Finish` pops an
empty stack). -/
def itrSteps (o : HookOracle) : ITRState → List Index → Option ITRState
  | s, [] => some s
  | s, i :: is =>
    match itrCall o s i with
    | some (s', true) => itrSteps o s' is
    | _ => none

/-- The full protocol of claim C1: feed every index, then `Finish`. -/
def itrRun (o : HookOracle) (idxs : List Index) : Option ITRState :=
  match itrSteps o itrInit idxs with
  | none => none
  | some s => finishITR o s

/-- A strictly increasing index sequence: each rejection guard
`index <= self.index` answers false. -/
def idxSortedB : List Index → Bool
  | [] => true
  | [_] => true
  | a :: b :: rest => !(idxLe b a) && idxSortedB (b :: rest)

/-- Propositional form of strict increase. -/
abbrev IdxSorted (idxs : List Index) : Prop :=
  idxSortedB idxs = true

/-- Number of `start_process` events for branch `id`. -/
def startCount (id : Nat) (evs : List Event) : Nat :=
  evs.countP fun e => match e with | .start i _ => i == id | _ => false

/-- Number of `end_process` events for branch `id`. -/
def endCount (id : Nat) (evs : List Event) : Nat :=
  evs.countP fun e => match e with | .endp i => i == id | _ => false

/-- Number of times branch `id` was passed to a parent's
`branch_process`. -/
def mergeCount (id : Nat) (evs : List Event) : Nat :=
  evs.countP fun e => match e with | .merge c _ => c == id | _ => false

/-- Every `end_process` of a branch comes after its `start_process`. -/
def StartBeforeEnd (evs : List Event) : Prop :=
  ∀ i j c idx, evs.get? i = some (.endp c) → evs.get? j = some (.start c idx) →
    j < i

/-- Every merge of a finished child comes after the child's
`end_process`. -/
def EndBeforeMerge (evs : List Event) : Prop :=
  ∀ i j c p, evs.get? i = some (.merge c p) → evs.get? j = some (.endp c) →
    j < i

/-- Every merge into a parent comes before the parent's own
`end_process`. -/
def MergeBeforeParentEnd (evs : List Event) : Prop :=
  ∀ i j c p, evs.get? i = some (.endp p) → evs.get? j = some (.merge c p) →
    j < i

/-- The creation-time parent of branch `c`: the branch that was innermost
when `c` was opened, read off from the trace (the merge partner).  Claim
C1's post-order contract, stated on a finished trace: hook counts (one
start and one end per opened branch, at most one each overall), exactly
one merge per non-root finished branch and none for the root, and the
post-order interleaving conditions. -/
def PostOrderOK (s : ITRState) : Prop :=
  (∀ id, startCount id s.events ≤ 1) ∧
  (∀ id, endCount id s.events ≤ 1) ∧
  (∀ id, startCount id s.events = 1 → endCount id s.events = 1) ∧
  (∀ id, id ≠ 0 → endCount id s.events = 1 → mergeCount id s.events = 1) ∧
  mergeCount 0 s.events = 0 ∧
  (∀ i c p, s.events.get? i = some (.merge c p) →
    s.parentMap.get? c = some (some p)) ∧
  StartBeforeEnd s.events ∧ EndBeforeMerge s.events ∧
    MergeBeforeParentEnd s.events

/-- Concrete index sequence for the C1 witness. -/
def c1Idxs : List Index := [[], ["a"], ["a", "b"], ["b"]]

/-- The final state of the C1 witness run. -/
def c1Fin : ITRState := (itrRun noopOracle c1Idxs).getD {}

/-- The ids of the branches on a stack. -/
def stackIds (brs : List Branch) : List Nat := brs.map Branch.id

/-- Each branch's recorded creation parent is the branch directly below
it on the stack. -/
def StackLinked (pm : List (Option Nat)) : List Branch → Prop
  | [] => True
  | [_] => True
  | b :: nb :: rest =>
    pm.get? b.id = some (some nb.id) ∧ StackLinked pm (nb :: rest)

/-- Event-accounting invariant of a reachable reducer configuration:
start counts are determined by creation (`id < nid`, the root counting
as started only once the first index has been accepted), end counts by having left the
stack, merge counts by having left the stack as a non-root, merge events
agree with the recorded creation parents, and the three interleaving
orders hold. -/
def EvInvParts (pm : List (Option Nat)) (nid : Nat) (iOpt : Option Index)
    (brs : List Branch) (evs : List Event) : Prop :=
  (∀ id, startCount id evs =
    if id < nid then (if id = 0 ∧ iOpt = none then 0 else 1) else 0) ∧
  (∀ id, endCount id evs =
    if id < nid ∧ id ∉ stackIds brs then 1 else 0) ∧
  (∀ id, mergeCount id evs =
    if id < nid ∧ id ∉ stackIds brs ∧ id ≠ 0 then 1 else 0) ∧
  (∀ i c p, evs.get? i = some (.merge c p) → pm.get? c = some (some p)) ∧
  StartBeforeEnd evs ∧ EndBeforeMerge evs ∧ MergeBeforeParentEnd evs

/-- Shape invariant of the reachable stack: the root (id 0) is at the
bottom, all ids are fresh-bounded, ids strictly decrease towards the
bottom, and parent links match the stacking order. -/
def StackInvParts (pm : List (Option Nat)) (nid : Nat)
    (brs : List Branch) : Prop :=
  (brs.getLast?).map Branch.id = some 0 ∧
  (∀ b ∈ brs, b.id < nid) ∧
  List.Chain' (fun x y => y.id < x.id) brs ∧
  StackLinked pm brs

/-- The full invariant of reachable `IterTreeReducer` states. -/
def ITRInv (s : ITRState) : Prop :=
  s.parentMap.length = s.nextId ∧
  StackInvParts s.parentMap s.nextId s.branches ∧
  EvInvParts s.parentMap s.nextId s.index s.branches s.events

/-! ## Theorems about the glob compiler and path selector -/

theorem globToRegexF_noMeta (fuel : Nat) :
    ∀ pat : List Char, noMeta pat = true → pat.length ≤ fuel →
      globToRegexF fuel pat = pat.map RAtom.lit := by
  induction fuel with
  | zero =>
    intro pat h hl
    cases pat with
    | nil => rfl
    | cons c rest => simp at hl
  | succ fuel ih =>
    intro pat h hl
    cases pat with
    | nil => rfl
    | cons c rest =>
      rw [noMeta, List.all_cons, Bool.and_eq_true] at h
      obtain ⟨hc, hrest⟩ := h
      simp only [Bool.not_eq_eq_eq_not, Bool.not_true, Bool.or_eq_false_iff,
        beq_eq_false_iff_ne, ne_eq] at hc
      obtain ⟨⟨hq, hs⟩, hb⟩ := hc
      rw [globToRegexF, if_neg hs, if_neg hq, if_neg hb, List.map_cons]
      refine congrArg _ (ih rest hrest ?_)
      simpa using Nat.le_of_succ_le_succ hl

theorem globToRegex_noMeta (pat : List Char) (h : noMeta pat = true) :
    globToRegex pat = pat.map RAtom.lit :=
  globToRegexF_noMeta pat.length pat h (Nat.le_refl _)

theorem matchAtoms_lits (pat : List Char) (s : List Char) :
    matchAtoms (pat.map RAtom.lit) s = true ↔ s = pat := by
  induction pat generalizing s with
  | nil => cases s <;> simp [matchAtoms]
  | cons c rest ih =>
    cases s with
    | nil => simp [matchAtoms]
    | cons d ds =>
      rw [List.map_cons, matchAtoms, Bool.and_eq_true, beq_iff_eq, ih]
      constructor
      · rintro ⟨rfl, rfl⟩; rfl
      · intro h
        injection h with h1 h2
        exact ⟨h1.symm, h2⟩

theorem globCompMatch_lits (pat s : List Char) :
    globCompMatch (pat.map RAtom.lit) s = true ↔
      s = pat ∨ s = pat ++ ['\n'] ∨ ∃ rest, s = pat ++ '/' :: rest := by
  rw [globCompMatch, List.any_eq_true]
  constructor
  · rintro ⟨k, _, hcond⟩
    rw [Bool.and_eq_true, matchAtoms_lits] at hcond
    obtain ⟨htake, hdrop⟩ := hcond
    rcases hd : s.drop k with _ | ⟨d, t⟩
    · left
      rw [← List.take_append_drop k s, htake, hd, List.append_nil]
    · rw [hd, dollarOrSlash, Bool.or_eq_true, Bool.and_eq_true,
        beq_iff_eq, beq_iff_eq, List.isEmpty_iff] at hdrop
      rcases hdrop with rfl | ⟨rfl, rfl⟩
      · exact Or.inr (Or.inr
          ⟨t, by rw [← List.take_append_drop k s, htake, hd]⟩)
      · exact Or.inr (Or.inl
          (by rw [← List.take_append_drop k s, htake, hd]))
  · rintro (rfl | rfl | ⟨rest, rfl⟩)
    · refine ⟨s.length, ?_, ?_⟩
      · exact List.mem_range.mpr (Nat.lt_succ_self _)
      · rw [Bool.and_eq_true, matchAtoms_lits, List.take_length, List.drop_length]
        exact ⟨rfl, rfl⟩
    · refine ⟨pat.length, ?_, ?_⟩
      · refine List.mem_range.mpr ?_
        rw [List.length_append, List.length_cons]
        omega
      · rw [Bool.and_eq_true, matchAtoms_lits, List.take_left, List.drop_left]
        exact ⟨rfl, by decide⟩
    · refine ⟨pat.length, ?_, ?_⟩
      · refine List.mem_range.mpr ?_
        rw [List.length_append, List.length_cons]
        omega
      · rw [Bool.and_eq_true, matchAtoms_lits, List.take_left, List.drop_left]
        exact ⟨rfl, by simp [dollarOrSlash]⟩

/-- C3 counterexample: the pattern `"a"` contains no glob metacharacter and
does not denote a directory (no trailing separator), yet the compiled
match-regex `^a($|/)` accepts the descendant path `"a/b"` (a Python
`match` is a prefix match, and the `($|/)` alternative matches the
separator).  The claim that a descendant path is matched only when the
pattern denotes a directory is therefore false. -/
theorem glob_literal_descendant_cex :
    noMeta ("a".data) = true ∧ "a".back ≠ '/' ∧
      globCompMatch (globToRegex ("a".data)) ("a/b".data) = true := by
  refine ⟨by decide, by decide, by decide⟩

/-- C3 (amended): for every pattern with no glob metacharacters, the
compiled match-regex (built by the selector from the separator-stripped
pattern `pat`) accepts exactly `pat` itself, `pat` followed by one
trailing newline (Python's `$` matches just before a newline that ends
the string), and every string of the form `pat ++ "/" ++ anything`,
whether or not the pattern denoted a directory. -/
theorem glob_literal_match_iff (pat : List Char) (h : noMeta pat = true)
    (s : List Char) :
    globCompMatch (globToRegex pat) s = true ↔
      s = pat ∨ s = pat ++ ['\n'] ∨ ∃ rest, s = pat ++ '/' :: rest := by
  rw [globToRegex_noMeta pat h]
  exact globCompMatch_lits pat s

theorem glob_literal_match_iff_witness :
    noMeta ("ab".data) = true ∧
      (globCompMatch (globToRegex ("ab".data)) ("ab/c".data) = true ↔
        ("ab/c".data = "ab".data ∨ "ab/c".data = "ab".data ++ ['\n'] ∨
          ∃ rest, "ab/c".data = "ab".data ++ '/' :: rest)) :=
  ⟨by decide, glob_literal_match_iff ("ab".data) (by decide) ("ab/c".data)⟩

/-- C4 counterexample: the match-regex compiled from `"a/**"` is
`^a/.*($|/)`, which requires the literal `a/` before the recursive
wildcard; the string `"a"` therefore does not match it (the selector
instead reaches `"a"` through the ancestor-prefix regexes, returning
ScanDirectory). -/
theorem glob_doublestar_a_cex :
    globCompMatch (globToRegex ("a/**".data)) ("a".data) = false := by
  decide

/-- C4 (amended): the compiled match-regex for the pattern `"a/**"`
matches `"a/b"` and `"a/b/c"` but does not match `"a"`; under include
polarity the selector still answers ScanDirectory (2) for `"a"` via the
prefix regexes. -/
theorem glob_doublestar_matches :
    globCompMatch (globToRegex ("a/**".data)) ("a/b".data) = true ∧
      globCompMatch (globToRegex ("a/**".data)) ("a/b/c".data) = true ∧
      globCompMatch (globToRegex ("a/**".data)) ("a".data) = false ∧
      pathMatchesGlob "a" false "a/**" 1 = Except.ok (some 2) := by
  refine ⟨by decide, by decide, by decide, by decide⟩

/-- C7 counterexample: the glob `"a//b/"` ends in a separator and the path
is not a directory, but the selector does not return NoOpinion: the
ancestor-prefix regexes are compiled before the directory gate is
consulted, and that compilation raises `GlobbingError` on the consecutive
slashes left after stripping the trailing one. -/
theorem dir_only_error_cex :
    "a//b/".back = '/' ∧ ("a//b/" : String) ≠ "/" ∧
      pathMatchesGlob "x" false "a//b/" 1 ≠ Except.ok none ∧
      pathMatchesGlob "x" false "a//b/" 1 =
        Except.error (GlobErr.globbing
          "Consecutive '/'s found in globbing string a//b") := by
  refine ⟨by decide, by decide, by decide, by decide⟩

/-- C7 (amended): for every non-directory path and every glob pattern
other than the bare `"/"` that ends in a trailing separator, if the
selector returns at all (i.e., prefix-regex compilation does not raise),
it returns NoOpinion, for either polarity and regardless of any match. -/
theorem dir_only_noopinion (name : String) (globStr : String) (inc : Nat)
    (h1 : globStr ≠ "/") (h2 : globStr ≠ "") (h3 : globStr.back = '/')
    (r : Option Nat)
    (h4 : pathMatchesGlob name false globStr inc = Except.ok r) :
    r = none := by
  rw [pathMatchesGlob, if_neg h1, if_neg h2, if_pos h3,
    pathMatchesGlobCore] at h4
  by_cases hv : atomsOk (globToRegex (globStr.dropRight 1).data) = true
  · rw [if_pos hv] at h4
    dsimp only at h4
    rcases hg : globGetPfxRegexs (truncDS (globStr.dropRight 1).data)
        with e | rs <;>
      rw [hg] at h4
    · cases h4
    · dsimp only at h4
      by_cases hv2 : rs.all atomsOk = true
      · rw [if_pos hv2] at h4
        simpa using h4.symm
      · rw [if_neg hv2] at h4
        cases h4
  · rw [if_neg hv] at h4
    cases h4

theorem dir_only_noopinion_witness :
    ("a/" : String) ≠ "/" ∧ ("a/" : String) ≠ "" ∧ "a/".back = '/' ∧
      pathMatchesGlob "a" false "a/" 1 = Except.ok none ∧
      (none : Option Nat) = none :=
  ⟨by decide, by decide, by decide, by decide,
    dir_only_noopinion "a" "a/" 1 (by decide) (by decide) (by decide) none
      (by decide)⟩

/-- C8: with exclude polarity (`include = 0`) the selector never returns
ScanDirectory — every run ends in Exclude (0), NoOpinion (None), or an
exception from glob compilation. -/
theorem exclude_never_scan (name : String) (isdir : Bool) (globStr : String) :
    pathMatchesGlob name isdir globStr 0 = Except.ok (some 0) ∨
      pathMatchesGlob name isdir globStr 0 = Except.ok none ∨
      ∃ e, pathMatchesGlob name isdir globStr 0 = Except.error e := by
  have core : ∀ (g : String) (dirs : Bool),
      pathMatchesGlobCore name isdir g dirs 0 = Except.ok (some 0) ∨
        pathMatchesGlobCore name isdir g dirs 0 = Except.ok none ∨
        ∃ e, pathMatchesGlobCore name isdir g dirs 0 = Except.error e := by
    intro g dirs
    rw [pathMatchesGlobCore]
    by_cases hv : atomsOk (globToRegex g.data) = true
    · rw [if_pos hv]
      dsimp only
      rcases hg : globGetPfxRegexs (truncDS g.data) with e | rs
      · exact Or.inr (Or.inr ⟨e, rfl⟩)
      · dsimp only
        by_cases hv2 : rs.all atomsOk = true
        · rw [if_pos hv2]
          by_cases hd : (dirs && !isdir) = true
          · rw [if_pos hd]; exact Or.inr (Or.inl rfl)
          · rw [if_neg hd]
            by_cases hm : globCompMatch (globToRegex g.data) name.data = true
            · rw [if_pos hm]; exact Or.inl rfl
            · rw [if_neg hm, if_neg (by simp : ¬((0 == 1 : Bool) &&
                scanMatch rs name.data) = true)]
              exact Or.inr (Or.inl rfl)
        · rw [if_neg hv2]; exact Or.inr (Or.inr ⟨.reError, rfl⟩)
    · rw [if_neg hv]; exact Or.inr (Or.inr ⟨.reError, rfl⟩)
  rw [pathMatchesGlob]
  by_cases h1 : globStr = "/"
  · rw [if_pos h1]; exact core globStr false
  · rw [if_neg h1]
    by_cases h2 : globStr = ""
    · rw [if_pos h2]; exact Or.inr (Or.inr ⟨.indexError, rfl⟩)
    · rw [if_neg h2]
      by_cases h3 : globStr.back = '/'
      · rw [if_pos h3]; exact core (globStr.dropRight 1) true
      · rw [if_neg h3]; exact core globStr false

/-- C9 counterexample: the glob string `"a/b//"` has an empty path
component in a position other than the first or the last (its `/`-split is
`["a", "b", "", ""]`), yet selector evaluation does not raise: the single
trailing separator is stripped before the prefix regexes are compiled, so
the remaining `"a/b/"` splits into `["a", "b", ""]`, whose only interior
component is non-empty, and a decision is produced.  The glob `"[z-a]//b"`
also has an empty interior component, yet it does not raise the
malformed-glob `GlobbingError` either: compiling the match-regex raises
`re.error` (reversed class range) before the ancestor-prefix step runs. -/
theorem malformed_glob_cex :
    (((splitSlash ("a/b//".data)).drop 1).dropLast).contains [] = true ∧
      pathMatchesGlob "x" true "a/b//" 1 = Except.ok none ∧
      (((splitSlash ("[z-a]//b".data)).drop 1).dropLast).contains [] = true ∧
      pathMatchesGlob "x" true "[z-a]//b" 1 = Except.error GlobErr.reError := by
  refine ⟨by decide, by decide, by decide, by decide⟩

/-- C9 (amended): for every glob string (other than `"/"` and `""`) that
still has an empty interior path component after the selector's
preprocessing — stripping one trailing separator and truncating just after
the first `**` — and whose match-regex `re.compile` accepts (no reversed
class range, which would raise `re.error` first), evaluation raises the
malformed-glob `GlobbingError` synchronously while the ancestor-prefix
regexes are built, and no selection decision is produced. -/
theorem malformed_glob_error (name : String) (isdir : Bool)
    (globStr : String) (inc : Nat)
    (h1 : globStr ≠ "/") (h2 : globStr ≠ "")
    (h3 : (((splitSlash (truncDS
        (if globStr.back = '/' then globStr.dropRight 1 else globStr).data)).drop
          1).dropLast).contains [] = true)
    (h4 : atomsOk (globToRegex
        (if globStr.back = '/' then globStr.dropRight 1 else globStr).data) =
      true) :
    pathMatchesGlob name isdir globStr inc =
      Except.error (GlobErr.globbing
        ("Consecutive '/'s found in globbing string " ++
          ⟨truncDS (if globStr.back = '/' then globStr.dropRight 1
            else globStr).data⟩)) := by
  rw [pathMatchesGlob, if_neg h1, if_neg h2]
  by_cases hb : globStr.back = '/'
  · simp only [if_pos hb] at h3 h4 ⊢
    rw [pathMatchesGlobCore, if_pos h4]
    dsimp only
    rw [globGetPfxRegexs, if_pos h3]
  · simp only [if_neg hb] at h3 h4 ⊢
    rw [pathMatchesGlobCore, if_pos h4]
    dsimp only
    rw [globGetPfxRegexs, if_pos h3]

theorem mux_fetch_no_closing {α : Type} (s : MuxState α) (k : Nat) :
    MuxEvent.closing ∉ (muxFetch s k).2.2 := by
  rw [muxFetch]
  split
  · simp
  · split
    · simp
    · dsimp only
      split
      · simp
      · split
        · simp
        · split <;> simp

/-- C2 counterexample: with an empty two-fork source, `closing_func`
fires on fork 0's first poll *and again* on fork 1's first poll (the
dedup flag is re-assigned the falsy `None`), so it is not invoked exactly
once over the multiplexer's lifetime; and over the source `[5]`, after
both forks have consumed the element, a further poll fires `closing_func`
at ordinary end-of-stream, which the claim says never happens. -/
theorem mux_closing_not_once_cex :
    (getNext muxEmpty2 0).2.2 = [MuxEvent.closing] ∧
      (getNext ((getNext muxEmpty2 0).2.1) 1).2.2 = [MuxEvent.closing] ∧
      (getNext muxOne2 0).1 = MuxOut.val 5 ∧
      (getNext muxOne2a 1).1 = MuxOut.val 5 ∧
      (getNext muxOne2b 0).2.2 = [MuxEvent.closing] := by
  refine ⟨by decide, by decide, by decide, by decide, by decide⟩

/-- C2 (amended): `closing_func` is invoked on a `get_next` call exactly
when the calling fork is at the `-1` marker, the source is exhausted, and
*every* fork is at the `-1` marker (no fork has a pending buffered
element) — a condition that also holds after all forks have consumed the
whole stream in lock-step; and since the guard flag is re-assigned a
falsy value, nothing prevents it from firing again on later such calls. -/
theorem mux_closing_iff (α : Type) (s : MuxState α) (k : Nat) :
    MuxEvent.closing ∈ (getNext s k).2.2 ↔
      s.forkposition.get? k = some (-1) ∧ s.source = [] ∧
        s.forkposition = List.replicate s.forkposition.length (-1) ∧
        s.calledClosingFunc = false := by
  rw [getNext]
  rcases hk : s.forkposition.get? k with _ | pos
  · simp
  · dsimp only
    by_cases hpos : pos = -1
    · subst hpos
      rw [if_pos rfl]
      rcases hs : s.source with _ | ⟨x, rest⟩
      · dsimp only
        by_cases hg : s.forkposition =
            List.replicate s.forkposition.length (-1) ∧
            s.calledClosingFunc = false
        · rw [if_pos hg]
          exact ⟨fun _ => ⟨rfl, rfl, hg.1, hg.2⟩,
            fun _ => List.mem_singleton_self _⟩
        · rw [if_neg hg]
          simp only [List.not_mem_nil, false_iff]
          intro hc
          exact hg ⟨hc.2.2.1, hc.2.2.2⟩
      · dsimp only
        simp only [mux_fetch_no_closing, false_iff]
        intro hc
        exact List.cons_ne_nil x rest (hs ▸ hc.2.1)
    · rw [if_neg hpos]
      simp only [mux_fetch_no_closing, false_iff]
      intro hc
      exact hpos (by injection hc.1)

/-- Witness instantiating the C2 characterization at a concrete state. -/
theorem mux_closing_iff_witness :
    MuxEvent.closing ∈ (getNext muxEmpty2 0).2.2 :=
  (mux_closing_iff Nat muxEmpty2 0).mpr ⟨by decide, by decide, by decide, by decide⟩

theorem stepA_mk_lt {α : Type} (orig : List α) (a b : Nat)
    (hb : b ≤ orig.length) (ha : a < orig.length) :
    stepA (m2Mk orig a b) = some (orig.get ⟨a, ha⟩, m2Mk orig (a + 1) b) := by
  rcases le_or_lt b a with hba | hab
  · have hmax : max a b = a := Nat.max_eq_left hba
    have hmin : min a b = b := Nat.min_eq_right hba
    have hmax1 : max (a + 1) b = a + 1 := Nat.max_eq_left (by omega)
    have hmin1 : min (a + 1) b = b := Nat.min_eq_right (by omega)
    rw [stepA]
    simp only [m2Mk, hmax, hmin, hmax1, hmin1]
    rw [if_pos (by omega : (0 : Int) ≤ (a : Int) - (b : Int))]
    rw [List.drop_eq_getElem_cons ha]
    dsimp only
    simp only [Option.some.injEq, Prod.mk.injEq, M2State.mk.injEq,
      List.get_eq_getElem, eq_self_iff_true, and_true, true_and]
    refine ⟨by omega, ?_⟩
    rw [List.take_succ, List.getElem?_eq_getElem ha]
    rw [List.drop_append_of_le_length
      (by rw [List.length_take]; omega : b ≤ (orig.take a).length)]
    rfl
  · have hmax : max a b = b := Nat.max_eq_right (Nat.le_of_lt hab)
    have hmin : min a b = a := Nat.min_eq_left (Nat.le_of_lt hab)
    have hmax1 : max (a + 1) b = b := Nat.max_eq_right hab
    have hmin1 : min (a + 1) b = a + 1 := Nat.min_eq_left hab
    have hlt : a < (orig.take b).length := by
      rw [List.length_take]; omega
    rw [stepA]
    simp only [m2Mk, hmax, hmin, hmax1, hmin1]
    rw [if_neg (by omega : ¬ (0 : Int) ≤ (a : Int) - (b : Int))]
    rw [List.drop_eq_getElem_cons hlt]
    dsimp only
    simp only [Option.some.injEq, Prod.mk.injEq, M2State.mk.injEq,
      List.get_eq_getElem, eq_self_iff_true, and_true, true_and]
    refine ⟨by simp [List.getElem_take], by omega⟩

theorem stepA_mk_none {α : Type} (orig : List α) (b : Nat)
    (hb : b ≤ orig.length) :
    stepA (m2Mk orig orig.length b) = none := by
  have hmax : max orig.length b = orig.length := Nat.max_eq_left hb
  rw [stepA]
  simp only [m2Mk, hmax]
  rw [if_pos (by omega : (0 : Int) ≤ (orig.length : Int) - (b : Int))]
  simp [List.drop_length]

theorem stepB_mk_lt {α : Type} (orig : List α) (a b : Nat)
    (ha : a ≤ orig.length) (hb : b < orig.length) :
    stepB (m2Mk orig a b) = some (orig.get ⟨b, hb⟩, m2Mk orig a (b + 1)) := by
  rcases le_or_lt a b with hab | hba
  · have hmax : max a b = b := Nat.max_eq_right hab
    have hmin : min a b = a := Nat.min_eq_left hab
    have hmax1 : max a (b + 1) = b + 1 := Nat.max_eq_right (by omega)
    have hmin1 : min a (b + 1) = a := Nat.min_eq_left (by omega)
    rw [stepB]
    simp only [m2Mk, hmax, hmin, hmax1, hmin1]
    rw [if_pos (by omega : (a : Int) - (b : Int) ≤ 0)]
    rw [List.drop_eq_getElem_cons hb]
    dsimp only
    simp only [Option.some.injEq, Prod.mk.injEq, M2State.mk.injEq,
      List.get_eq_getElem, eq_self_iff_true, and_true, true_and]
    refine ⟨by omega, ?_⟩
    rw [List.take_succ, List.getElem?_eq_getElem hb]
    rw [List.drop_append_of_le_length
      (by rw [List.length_take]; omega : a ≤ (orig.take b).length)]
    rfl
  · have hmax : max a b = a := Nat.max_eq_left (Nat.le_of_lt hba)
    have hmin : min a b = b := Nat.min_eq_right (Nat.le_of_lt hba)
    have hmax1 : max a (b + 1) = a := Nat.max_eq_left hba
    have hmin1 : min a (b + 1) = b + 1 := Nat.min_eq_right hba
    have hlt : b < (orig.take a).length := by
      rw [List.length_take]; omega
    rw [stepB]
    simp only [m2Mk, hmax, hmin, hmax1, hmin1]
    rw [if_neg (by omega : ¬ (a : Int) - (b : Int) ≤ 0)]
    rw [List.drop_eq_getElem_cons hlt]
    dsimp only
    simp only [Option.some.injEq, Prod.mk.injEq, M2State.mk.injEq,
      List.get_eq_getElem, eq_self_iff_true, and_true, true_and]
    refine ⟨by simp [List.getElem_take], by omega⟩

theorem stepB_mk_none {α : Type} (orig : List α) (a : Nat)
    (ha : a ≤ orig.length) :
    stepB (m2Mk orig a orig.length) = none := by
  have hmax : max a orig.length = orig.length := Nat.max_eq_right ha
  rw [stepB]
  simp only [m2Mk, hmax]
  rw [if_pos (by omega : (a : Int) - (orig.length : Int) ≤ 0)]
  simp [List.drop_length]

theorem runM2_mk {α : Type} (orig : List α) (reqs : List Bool) :
    ∀ a b, a ≤ orig.length → b ≤ orig.length →
      (∃ k, (runM2 (m2Mk orig a b) a b reqs).1 = (orig.drop a).take k) ∧
        (∃ k, (runM2 (m2Mk orig a b) a b reqs).2.1 = (orig.drop b).take k) ∧
        (∀ t ∈ (runM2 (m2Mk orig a b) a b reqs).2.2,
          ∃ a' b', a' ≤ orig.length ∧ b' ≤ orig.length ∧
            t = (m2Mk orig a' b', a', b')) := by
  induction reqs with
  | nil =>
    intro a b ha hb
    exact ⟨⟨0, by simp [runM2]⟩, ⟨0, by simp [runM2]⟩, by simp [runM2]⟩
  | cons r rs ih =>
    intro a b ha hb
    cases r with
    | true =>
      rcases Nat.lt_or_ge a orig.length with han | han
      · rw [runM2, stepA_mk_lt orig a b hb han]
        obtain ⟨⟨k1, h1⟩, ⟨k2, h2⟩, h3⟩ := ih (a + 1) b (by omega) hb
        refine ⟨⟨k1 + 1, ?_⟩, ⟨k2, ?_⟩, ?_⟩
        · dsimp only
          rw [h1, List.drop_eq_getElem_cons han, List.take_succ_cons]
          simp
        · dsimp only
          exact h2
        · dsimp only
          intro t ht
          rcases List.mem_cons.mp ht with rfl | ht'
          · exact ⟨a + 1, b, by omega, hb, rfl⟩
          · exact h3 t ht'
      · have haeq : a = orig.length := by omega
        subst haeq
        rw [runM2, stepA_mk_none orig b hb]
        obtain ⟨⟨k1, h1⟩, ⟨k2, h2⟩, h3⟩ := ih orig.length b (Nat.le_refl _) hb
        refine ⟨⟨k1, h1⟩, ⟨k2, h2⟩, ?_⟩
        dsimp only
        intro t ht
        rcases List.mem_cons.mp ht with rfl | ht'
        · exact ⟨orig.length, b, Nat.le_refl _, hb, rfl⟩
        · exact h3 t ht'
    | false =>
      rcases Nat.lt_or_ge b orig.length with hbn | hbn
      · rw [runM2, stepB_mk_lt orig a b ha hbn]
        obtain ⟨⟨k1, h1⟩, ⟨k2, h2⟩, h3⟩ := ih a (b + 1) ha (by omega)
        refine ⟨⟨k1, ?_⟩, ⟨k2 + 1, ?_⟩, ?_⟩
        · dsimp only
          exact h1
        · dsimp only
          rw [h2, List.drop_eq_getElem_cons hbn, List.take_succ_cons]
          simp
        · dsimp only
          intro t ht
          rcases List.mem_cons.mp ht with rfl | ht'
          · exact ⟨a, b + 1, ha, by omega, rfl⟩
          · exact h3 t ht'
      · have hbeq : b = orig.length := by omega
        subst hbeq
        rw [runM2, stepB_mk_none orig a ha]
        obtain ⟨⟨k1, h1⟩, ⟨k2, h2⟩, h3⟩ := ih a orig.length ha (Nat.le_refl _)
        refine ⟨⟨k1, h1⟩, ⟨k2, h2⟩, ?_⟩
        dsimp only
        intro t ht
        rcases List.mem_cons.mp ht with rfl | ht'
        · exact ⟨a, orig.length, ha, Nat.le_refl _, rfl⟩
        · exact h3 t ht'

/-- C5: for every finite source forked in two by `IterMultiplex2` and
every interleaving of requests, each fork that is fully drained has
received exactly the original sequence in order, and at every
intermediate state the shared buffer's length is bounded by the absolute
difference of the two forks' consumption counts. -/
theorem iterMultiplex2_correct (α : Type) (orig : List α) (reqs : List Bool) :
    ((runM2 (m2Init orig) 0 0 reqs).1.length = orig.length →
        (runM2 (m2Init orig) 0 0 reqs).1 = orig) ∧
      ((runM2 (m2Init orig) 0 0 reqs).2.1.length = orig.length →
        (runM2 (m2Init orig) 0 0 reqs).2.1 = orig) ∧
      ∀ t ∈ (runM2 (m2Init orig) 0 0 reqs).2.2,
        t.1.buffer.length ≤ ((t.2.1 : Int) - (t.2.2 : Int)).natAbs := by
  have hinit : m2Init (α := α) orig = m2Mk orig 0 0 := by
    simp [m2Init, m2Mk]
  rw [hinit]
  obtain ⟨⟨k1, h1⟩, ⟨k2, h2⟩, h3⟩ :=
    runM2_mk orig reqs 0 0 (Nat.zero_le _) (Nat.zero_le _)
  rw [List.drop_zero] at h1 h2
  refine ⟨?_, ?_, ?_⟩
  · intro hlen
    rw [h1] at hlen ⊢
    rw [List.length_take] at hlen
    exact List.take_of_length_le (by omega)
  · intro hlen
    rw [h2] at hlen ⊢
    rw [List.length_take] at hlen
    exact List.take_of_length_le (by omega)
  · intro t ht
    obtain ⟨a', b', ha', hb', rfl⟩ := h3 t ht
    simp only [m2Mk]
    rw [List.length_drop, List.length_take]
    omega

theorem iterMultiplex2_correct_witness :
    (runM2 (m2Init [1, 2]) 0 0 [true, false, true, false]).1 = [1, 2] ∧
      (runM2 (m2Init [1, 2]) 0 0 [true, false, true, false]).2.1 = [1, 2] :=
  ⟨(iterMultiplex2_correct Nat [1, 2] [true, false, true, false]).1 (by decide),
    (iterMultiplex2_correct Nat [1, 2] [true, false, true, false]).2.1 (by decide)⟩

/-- C6: once the reducer has accepted an index, feeding an entry whose
index is less than or equal to it leaves the branch stack and the stored
last-accepted index unchanged, invokes no branch hooks (only the warning
is logged), and the per-entry call still returns true. -/
theorem itrCall_out_of_order (o : HookOracle) (s : ITRState)
    (idx prev : Index) (h1 : s.index = some prev)
    (h2 : idxLe idx prev = true) :
    itrCall o s idx =
      some ({ s with events := s.events ++ [Event.warn] }, true) := by
  simp only [itrCall, h1, if_pos h2]

theorem itrCall_out_of_order_witness :
    (ITRState.mk (some ["b"])
        [{ id := 0, base_index := some [], start_successful := true }] 1
        [none] []).index = some ["b"] ∧
      idxLe ["a"] ["b"] = true ∧
      itrCall noopOracle
          (ITRState.mk (some ["b"])
            [{ id := 0, base_index := some [], start_successful := true }] 1
            [none] []) ["a"] =
        some (ITRState.mk (some ["b"])
          [{ id := 0, base_index := some [], start_successful := true }] 1
          [none] [Event.warn], true) :=
  ⟨rfl, by decide,
    itrCall_out_of_order noopOracle _ ["a"] ["b"] rfl (by decide)⟩

/-- C10: `Finish` completes normally exactly from states with a
non-empty branch stack (its first pop raises from an empty one); the
per-entry call leaves the stack empty exactly when it returns false
("out of the entire tree"), and a true-returning call never empties a
non-empty stack — so the empty-stack states are those reached by a false
return. -/
theorem finish_requires_nonempty (o : HookOracle) (s : ITRState) :
    ((finishITR o s).isSome ↔ s.branches ≠ []) ∧
      (∀ idx s', itrCall o s idx = some (s', false) → s'.branches = []) ∧
      (∀ idx s', itrCall o s idx = some (s', true) → s.branches ≠ [] →
        s'.branches ≠ []) := by
  refine ⟨?_, ?_, ?_⟩
  · rw [finishITR]
    constructor
    · intro hs hempty
      rw [hempty] at hs
      simp [finishLoop] at hs
    · intro hne
      rcases hbr : s.branches with _ | ⟨b, rest⟩
      · exact absurd hbr hne
      · have key : ∀ (rest : List Branch) (b : Branch),
            (finishLoop o (b :: rest)).isSome = true := by
          intro rest
          induction rest with
          | nil => intro b; rw [finishLoop]; rfl
          | cons nb rs ih =>
            intro b
            rw [finishLoop]
            try dsimp only
            rcases hfl : finishLoop o (nb :: rs) with _ | evs
            · have h2 := ih nb
              rw [hfl] at h2
              cases h2
            · rfl
        rcases hfl : finishLoop o (b :: rest) with _ | evs
        · have h2 := key rest b
          rw [hfl] at h2
          cases h2
        · simp
  · intro idx s' h
    rw [itrCall] at h
    split at h
    · split at h
      · simp at h
      · cases h
    · split at h
      · simp at h
      · split at h
        · cases h
        · simp only [Option.some.injEq, Prod.mk.injEq] at h
          obtain ⟨h1, -⟩ := h
          subst h1
          rfl
        · cases h
        · split at h
          · split at h
            · simp at h
            · simp at h
          · simp at h
  · intro idx s' h hne
    rw [itrCall] at h
    split at h
    · split at h
      · simp only [Option.some.injEq, Prod.mk.injEq] at h
        obtain ⟨h1, -⟩ := h
        subst h1
        simp
      · cases h
    · split at h
      · simp only [Option.some.injEq, Prod.mk.injEq] at h
        obtain ⟨h1, -⟩ := h
        subst h1
        simpa using hne
      · split at h
        · cases h
        · simp at h
        · cases h
        · split at h
          · split at h
            · simp only [Option.some.injEq, Prod.mk.injEq] at h
              obtain ⟨h1, -⟩ := h
              subst h1
              simp
            · simp only [Option.some.injEq, Prod.mk.injEq] at h
              obtain ⟨h1, -⟩ := h
              subst h1
              simp
          · simp only [Option.some.injEq, Prod.mk.injEq] at h
            obtain ⟨h1, -⟩ := h
            subst h1
            simp

theorem finish_requires_nonempty_witness :
    (finishITR noopOracle itrInit).isSome = true ∧
      (finishITR noopOracle (ITRState.mk (some ["a"]) [] 1 [none] [])).isSome
        = false :=
  ⟨by
    have h := (finish_requires_nonempty noopOracle itrInit).1.mpr (by decide)
    exact h,
  by
    have h := (finish_requires_nonempty noopOracle
      (ITRState.mk (some ["a"]) [] 1 [none] [])).1
    rcases hs : (finishITR noopOracle (ITRState.mk (some ["a"]) [] 1 [none]
        [])).isSome with _ | _
    · rfl
    · exact absurd (h.mp (by rw [hs])) (by intro hc; exact hc rfl)⟩

theorem malformed_glob_error_witness :
    ("a//b" : String) ≠ "/" ∧ ("a//b" : String) ≠ "" ∧
      (((splitSlash (truncDS
          (if ("a//b" : String).back = '/' then ("a//b" : String).dropRight 1
            else "a//b").data)).drop 1).dropLast).contains [] = true ∧
      atomsOk (globToRegex
        (if ("a//b" : String).back = '/' then ("a//b" : String).dropRight 1
          else "a//b").data) = true ∧
      pathMatchesGlob "x" false "a//b" 1 =
        Except.error (GlobErr.globbing
          ("Consecutive '/'s found in globbing string " ++
            ⟨truncDS (if ("a//b" : String).back = '/' then
              ("a//b" : String).dropRight 1 else "a//b").data⟩)) :=
  ⟨by decide, by decide, by decide, by decide,
    malformed_glob_error "x" false "a//b" 1 (by decide) (by decide)
      (by decide) (by decide)⟩

/-! ### Counting and ordering helper lemmas for the tree reducer -/

theorem get?_append_one {α : Type} (l : List α) (e : α) (i : Nat) :
    (l ++ [e]).get? i =
      if i < l.length then l.get? i
      else if i = l.length then some e else none := by
  rcases lt_trichotomy i l.length with h | h | h
  · rw [if_pos h, List.get?_append h]
  · rw [if_neg (by omega), if_pos h, h, List.get?_concat_length]
  · rw [if_neg (by omega), if_neg (by omega),
      List.get?_append_right (by omega)]
    rcases hd : i - l.length with _ | m
    · omega
    · rfl

theorem count_pos_of_get? {p : Event → Bool} {evs : List Event} {i : Nat}
    {e : Event} (hi : evs.get? i = some e) (hp : p e = true) :
    0 < evs.countP p := by
  rcases List.get?_eq_some.mp hi with ⟨hlt, hget⟩
  exact List.countP_pos.mpr ⟨_, hget ▸ List.get_mem evs i hlt, hp⟩

theorem startBeforeEnd_append (evs : List Event) (e : Event)
    (h : StartBeforeEnd evs)
    (he : ∀ c idx, e = .start c idx → endCount c evs = 0) :
    StartBeforeEnd (evs ++ [e]) := by
  intro i j c idx hi hj
  rw [get?_append_one] at hi hj
  by_cases hilt : i < evs.length
  · rw [if_pos hilt] at hi
    by_cases hjlt : j < evs.length
    · rw [if_pos hjlt] at hj
      exact h i j c idx hi hj
    · by_cases hjeq : j = evs.length
      · rw [if_neg hjlt, if_pos hjeq] at hj
        injection hj with hj
        have hcnt := he c idx hj
        have hpos : 0 < endCount c evs :=
          count_pos_of_get? hi (by simp)
        rw [endCount] at hpos
        rw [endCount] at hcnt
        omega
      · rw [if_neg hjlt, if_neg hjeq] at hj; cases hj
  · by_cases hieq : i = evs.length
    · rw [if_neg hilt, if_pos hieq] at hi
      by_cases hjlt : j < evs.length
      · omega
      · by_cases hjeq : j = evs.length
        · rw [if_neg hjlt, if_pos hjeq] at hj
          injection hi with hi
          injection hj with hj
          rw [hj] at hi
          cases hi
        · rw [if_neg hjlt, if_neg hjeq] at hj; cases hj
    · rw [if_neg hilt, if_neg hieq] at hi; cases hi

theorem endBeforeMerge_append (evs : List Event) (e : Event)
    (h : EndBeforeMerge evs)
    (he : ∀ c, e = .endp c → mergeCount c evs = 0) :
    EndBeforeMerge (evs ++ [e]) := by
  intro i j c p hi hj
  rw [get?_append_one] at hi hj
  by_cases hilt : i < evs.length
  · rw [if_pos hilt] at hi
    by_cases hjlt : j < evs.length
    · rw [if_pos hjlt] at hj
      exact h i j c p hi hj
    · by_cases hjeq : j = evs.length
      · rw [if_neg hjlt, if_pos hjeq] at hj
        injection hj with hj
        have hcnt := he c hj
        have hpos : 0 < mergeCount c evs :=
          count_pos_of_get? hi (by simp)
        rw [mergeCount] at hpos
        rw [mergeCount] at hcnt
        omega
      · rw [if_neg hjlt, if_neg hjeq] at hj; cases hj
  · by_cases hieq : i = evs.length
    · rw [if_neg hilt, if_pos hieq] at hi
      by_cases hjlt : j < evs.length
      · omega
      · by_cases hjeq : j = evs.length
        · rw [if_neg hjlt, if_pos hjeq] at hj
          injection hi with hi
          injection hj with hj
          rw [hj] at hi
          cases hi
        · rw [if_neg hjlt, if_neg hjeq] at hj; cases hj
    · rw [if_neg hilt, if_neg hieq] at hi; cases hi

theorem mergeBeforeParentEnd_append (evs : List Event) (e : Event)
    (h : MergeBeforeParentEnd evs)
    (he : ∀ c p, e = .merge c p → endCount p evs = 0) :
    MergeBeforeParentEnd (evs ++ [e]) := by
  intro i j c p hi hj
  rw [get?_append_one] at hi hj
  by_cases hilt : i < evs.length
  · rw [if_pos hilt] at hi
    by_cases hjlt : j < evs.length
    · rw [if_pos hjlt] at hj
      exact h i j c p hi hj
    · by_cases hjeq : j = evs.length
      · rw [if_neg hjlt, if_pos hjeq] at hj
        injection hj with hj
        have hcnt := he c p hj
        have hpos : 0 < endCount p evs :=
          count_pos_of_get? hi (by simp)
        rw [endCount] at hpos
        rw [endCount] at hcnt
        omega
      · rw [if_neg hjlt, if_neg hjeq] at hj; cases hj
  · by_cases hieq : i = evs.length
    · rw [if_neg hilt, if_pos hieq] at hi
      by_cases hjlt : j < evs.length
      · omega
      · by_cases hjeq : j = evs.length
        · rw [if_neg hjlt, if_pos hjeq] at hj
          injection hi with hi
          injection hj with hj
          rw [hj] at hi
          cases hi
        · rw [if_neg hjlt, if_neg hjeq] at hj; cases hj
    · rw [if_neg hilt, if_neg hieq] at hi; cases hi

theorem processWBranch_id (o : HookOracle) (idx : Index) (b : Branch) :
    (processWBranch o idx b).1.id = b.id := by
  rw [processWBranch]
  dsimp only
  split <;> split <;> rfl

theorem processWBranch_events (o : HookOracle) (idx : Index) (b : Branch) :
    (processWBranch o idx b).2 = [Event.start b.id idx] := rfl

theorem callEndProc_id (o : HookOracle) (b : Branch) :
    (callEndProc o b).1.id = b.id := by
  rw [callEndProc]
  dsimp only
  split <;> split <;> rfl

theorem callEndProc_events (o : HookOracle) (b : Branch) :
    (callEndProc o b).2 = [Event.endp b.id] := rfl

theorem chain_gt_all :
    ∀ (l : List Branch) (b : Branch),
      List.Chain' (fun x y => y.id < x.id) (b :: l) →
      ∀ y ∈ l, y.id < b.id := by
  intro l
  induction l with
  | nil => intro b _ y hy; cases hy
  | cons nb rs ih =>
    intro b hch y hy
    rw [List.chain'_cons] at hch
    rcases List.mem_cons.mp hy with rfl | hy'
    · exact hch.1
    · have := ih nb hch.2 y hy'
      have := hch.1
      omega

theorem chain_head_notmem (l : List Branch) (b : Branch)
    (h : List.Chain' (fun x y => y.id < x.id) (b :: l)) :
    b.id ∉ stackIds l := by
  intro hmem
  rcases List.mem_map.mp hmem with ⟨y, hy, hyid⟩
  have := chain_gt_all l b h y hy
  omega

theorem getLast?_mem' {α : Type} :
    ∀ (l : List α) (a : α), l.getLast? = some a → a ∈ l := by
  intro l
  induction l with
  | nil => intro a h; cases h
  | cons x rest ih =>
    intro a h
    rcases rest with _ | ⟨y, rs⟩
    · rw [List.getLast?_singleton] at h
      injection h with h
      rw [h]
      exact List.mem_cons_self _ _
    · rw [List.getLast?_cons_cons] at h
      exact List.mem_cons_of_mem _ (ih a h)

theorem stackLinked_append (pm : List (Option Nat)) (x : Option Nat) :
    ∀ brs : List Branch, (∀ b ∈ brs, b.id < pm.length) →
      StackLinked pm brs → StackLinked (pm ++ [x]) brs := by
  intro brs
  induction brs with
  | nil => intro _ _; trivial
  | cons b rest ih =>
    intro hlt hl
    rcases rest with _ | ⟨nb, rs⟩
    · trivial
    · obtain ⟨h1, h2⟩ := hl
      refine ⟨?_, ih (fun y hy => hlt y (List.mem_cons_of_mem _ hy)) h2⟩
      rw [List.get?_append (hlt b (List.mem_cons_self _ _))]
      exact h1

theorem startCount_append (id : Nat) (l1 l2 : List Event) :
    startCount id (l1 ++ l2) = startCount id l1 + startCount id l2 :=
  List.countP_append _ _ _

theorem endCount_append (id : Nat) (l1 l2 : List Event) :
    endCount id (l1 ++ l2) = endCount id l1 + endCount id l2 :=
  List.countP_append _ _ _

theorem mergeCount_append (id : Nat) (l1 l2 : List Event) :
    mergeCount id (l1 ++ l2) = mergeCount id l1 + mergeCount id l2 :=
  List.countP_append _ _ _

theorem startCount_one_start (id c : Nat) (idx : Index) :
    startCount id [Event.start c idx] = if c = id then 1 else 0 := by
  simp [startCount, List.countP_cons, List.countP_nil]

theorem startCount_one_endp (id c : Nat) :
    startCount id [Event.endp c] = 0 := by
  simp [startCount, List.countP_cons, List.countP_nil]

theorem startCount_one_merge (id c p : Nat) :
    startCount id [Event.merge c p] = 0 := by
  simp [startCount, List.countP_cons, List.countP_nil]

theorem startCount_one_fast (id c : Nat) (idx : Index) :
    startCount id [Event.fast c idx] = 0 := by
  simp [startCount, List.countP_cons, List.countP_nil]

theorem startCount_one_skip (id c : Nat) (idx : Index) :
    startCount id [Event.skip c idx] = 0 := by
  simp [startCount, List.countP_cons, List.countP_nil]

theorem startCount_one_warn (id : Nat) :
    startCount id [Event.warn] = 0 := by
  simp [startCount, List.countP_cons, List.countP_nil]

theorem endCount_one_start (id c : Nat) (idx : Index) :
    endCount id [Event.start c idx] = 0 := by
  simp [endCount, List.countP_cons, List.countP_nil]

theorem endCount_one_endp (id c : Nat) :
    endCount id [Event.endp c] = if c = id then 1 else 0 := by
  simp [endCount, List.countP_cons, List.countP_nil]

theorem endCount_one_merge (id c p : Nat) :
    endCount id [Event.merge c p] = 0 := by
  simp [endCount, List.countP_cons, List.countP_nil]

theorem endCount_one_fast (id c : Nat) (idx : Index) :
    endCount id [Event.fast c idx] = 0 := by
  simp [endCount, List.countP_cons, List.countP_nil]

theorem endCount_one_skip (id c : Nat) (idx : Index) :
    endCount id [Event.skip c idx] = 0 := by
  simp [endCount, List.countP_cons, List.countP_nil]

theorem endCount_one_warn (id : Nat) :
    endCount id [Event.warn] = 0 := by
  simp [endCount, List.countP_cons, List.countP_nil]

theorem mergeCount_one_start (id c : Nat) (idx : Index) :
    mergeCount id [Event.start c idx] = 0 := by
  simp [mergeCount, List.countP_cons, List.countP_nil]

theorem mergeCount_one_endp (id c : Nat) :
    mergeCount id [Event.endp c] = 0 := by
  simp [mergeCount, List.countP_cons, List.countP_nil]

theorem mergeCount_one_merge (id c p : Nat) :
    mergeCount id [Event.merge c p] = if c = id then 1 else 0 := by
  simp [mergeCount, List.countP_cons, List.countP_nil]

theorem mergeCount_one_fast (id c : Nat) (idx : Index) :
    mergeCount id [Event.fast c idx] = 0 := by
  simp [mergeCount, List.countP_cons, List.countP_nil]

theorem mergeCount_one_skip (id c : Nat) (idx : Index) :
    mergeCount id [Event.skip c idx] = 0 := by
  simp [mergeCount, List.countP_cons, List.countP_nil]

theorem mergeCount_one_warn (id : Nat) :
    mergeCount id [Event.warn] = 0 := by
  simp [mergeCount, List.countP_cons, List.countP_nil]

theorem stackIds_cons (b : Branch) (l : List Branch) :
    stackIds (b :: l) = b.id :: stackIds l := rfl

theorem stackIds_head_mem (b : Branch) (l : List Branch) :
    b.id ∈ stackIds (b :: l) :=
  List.mem_map.mpr ⟨b, List.mem_cons_self _ _, rfl⟩

theorem stackIds_mem_of_mem {y : Branch} {l : List Branch} (h : y ∈ l) :
    y.id ∈ stackIds l :=
  List.mem_map.mpr ⟨y, h, rfl⟩

theorem pop_inv (pm : List (Option Nat)) (nid : Nat) (iOpt : Option Index)
    (b nb : Branch) (rs : List Branch) (evs : List Event)
    (hst : StackInvParts pm nid (b :: nb :: rs))
    (hev : EvInvParts pm nid iOpt (b :: nb :: rs) evs) :
    StackInvParts pm nid (nb :: rs) ∧
      EvInvParts pm nid iOpt (nb :: rs)
        ((evs ++ [Event.endp b.id]) ++ [Event.merge b.id nb.id]) := by
  obtain ⟨hlast, hlt, hchain, hlink⟩ := hst
  obtain ⟨hsc, hec, hmc, hmp, ho1, ho2, ho3⟩ := hev
  have hgt : ∀ y ∈ nb :: rs, y.id < b.id := chain_gt_all _ b hchain
  have hbnm : b.id ∉ stackIds (nb :: rs) := chain_head_notmem _ b hchain
  have hbnb : nb.id < b.id := hgt nb (List.mem_cons_self _ _)
  have hblt : b.id < nid := hlt b (List.mem_cons_self _ _)
  have hbpos : b.id ≠ 0 := by
    have hlast2 : (nb :: rs).getLast?.map Branch.id = some 0 := by
      rw [← List.getLast?_cons_cons]
      exact hlast
    rcases hl : (nb :: rs).getLast? with _ | lb
    · rw [hl] at hlast2; cases hlast2
    · rw [hl] at hlast2
      simp only [Option.map_some'] at hlast2
      injection hlast2 with hlb
      have hmem := getLast?_mem' _ _ hl
      have := hgt lb hmem
      omega
  have hend_b : endCount b.id evs = 0 := by
    rw [hec b.id, if_neg]
    rintro ⟨_, hnm⟩
    exact hnm (stackIds_head_mem b _)
  have hmerge_b : mergeCount b.id evs = 0 := by
    rw [hmc b.id, if_neg]
    rintro ⟨_, hnm, _⟩
    exact hnm (stackIds_head_mem b _)
  have hstack' : StackInvParts pm nid (nb :: rs) := by
    refine ⟨?_, ?_, ?_, ?_⟩
    · rw [← List.getLast?_cons_cons]; exact hlast
    · intro y hy; exact hlt y (List.mem_cons_of_mem _ hy)
    · exact (List.chain'_cons.mp hchain).2
    · exact hlink.2
  have ho1' := startBeforeEnd_append evs (.endp b.id) ho1
    (by intro c idx h; cases h)
  have ho2' := endBeforeMerge_append evs (.endp b.id) ho2
    (by intro c h; injection h with h; rw [← h]; exact hmerge_b)
  have ho3' := mergeBeforeParentEnd_append evs (.endp b.id) ho3
    (by intro c p h; cases h)
  have hend_nb1 : endCount nb.id (evs ++ [Event.endp b.id]) = 0 := by
    rw [endCount_append, endCount_one_endp, if_neg (by omega)]
    rw [hec nb.id, if_neg]
    rintro ⟨_, hnm⟩
    exact hnm (stackIds_mem_of_mem
      (List.mem_cons_of_mem _ (List.mem_cons_self _ _)))
  have ho1'' := startBeforeEnd_append _ (.merge b.id nb.id) ho1'
    (by intro c idx h; cases h)
  have ho2'' := endBeforeMerge_append _ (.merge b.id nb.id) ho2'
    (by intro c h; cases h)
  have ho3'' := mergeBeforeParentEnd_append _ (.merge b.id nb.id) ho3'
    (by intro c p h
        injection h with hc hp
        rw [← hp]
        exact hend_nb1)
  refine ⟨hstack', ?_, ?_, ?_, ?_, ho1'', ho2'', ho3''⟩
  · intro id
    rw [startCount_append, startCount_append, startCount_one_endp,
      startCount_one_merge, hsc id]
    simp
  · intro id
    rw [endCount_append, endCount_append, endCount_one_endp,
      endCount_one_merge, hec id]
    by_cases hid : id = b.id
    · subst hid
      rw [if_neg (show ¬(b.id < nid ∧ b.id ∉ stackIds (b :: nb :: rs)) from
          by rintro ⟨_, hnm⟩; exact hnm (stackIds_head_mem b _)),
        if_pos (show b.id = b.id from rfl),
        if_pos (show b.id < nid ∧ b.id ∉ stackIds (nb :: rs) from
          ⟨hblt, hbnm⟩)]
    · rw [if_neg (show ¬(b.id = id) from fun h => hid h.symm)]
      have hmemiff : id ∉ stackIds (b :: nb :: rs) ↔
          id ∉ stackIds (nb :: rs) := by
        rw [stackIds_cons]
        constructor
        · intro hn hmem; exact hn (List.mem_cons_of_mem _ hmem)
        · intro hn hmem
          rcases List.mem_cons.mp hmem with heq | hmem'
          · exact hid heq
          · exact hn hmem'
      by_cases hcond : id < nid ∧ id ∉ stackIds (nb :: rs)
      · rw [if_pos (show id < nid ∧ id ∉ stackIds (b :: nb :: rs) from
            ⟨hcond.1, hmemiff.mpr hcond.2⟩), if_pos hcond]
      · rw [if_neg (show ¬(id < nid ∧ id ∉ stackIds (b :: nb :: rs)) from
            fun hc => hcond ⟨hc.1, hmemiff.mp hc.2⟩), if_neg hcond]
  · intro id
    rw [mergeCount_append, mergeCount_append, mergeCount_one_endp,
      mergeCount_one_merge, hmc id]
    by_cases hid : id = b.id
    · subst hid
      rw [if_neg (show ¬(b.id < nid ∧ b.id ∉ stackIds (b :: nb :: rs) ∧
            b.id ≠ 0) from
          by rintro ⟨_, hnm, _⟩; exact hnm (stackIds_head_mem b _)),
        if_pos (show b.id = b.id from rfl),
        if_pos (show b.id < nid ∧ b.id ∉ stackIds (nb :: rs) ∧ b.id ≠ 0 from
          ⟨hblt, hbnm, hbpos⟩)]
    · rw [if_neg (show ¬(b.id = id) from fun h => hid h.symm)]
      have hmemiff : id ∉ stackIds (b :: nb :: rs) ↔
          id ∉ stackIds (nb :: rs) := by
        rw [stackIds_cons]
        constructor
        · intro hn hmem; exact hn (List.mem_cons_of_mem _ hmem)
        · intro hn hmem
          rcases List.mem_cons.mp hmem with heq | hmem'
          · exact hid heq
          · exact hn hmem'
      by_cases hcond : id < nid ∧ id ∉ stackIds (nb :: rs) ∧ id ≠ 0
      · rw [if_pos (show id < nid ∧ id ∉ stackIds (b :: nb :: rs) ∧ id ≠ 0
            from ⟨hcond.1, hmemiff.mpr hcond.2.1, hcond.2.2⟩),
          if_pos hcond]
      · rw [if_neg (show ¬(id < nid ∧ id ∉ stackIds (b :: nb :: rs) ∧
            id ≠ 0) from
            fun hc => hcond ⟨hc.1, hmemiff.mp hc.2.1, hc.2.2⟩),
          if_neg hcond]
  · intro i c p hi
    rw [get?_append_one] at hi
    by_cases hlt1 : i < (evs ++ [Event.endp b.id]).length
    · rw [if_pos hlt1] at hi
      rw [get?_append_one] at hi
      by_cases hlt0 : i < evs.length
      · rw [if_pos hlt0] at hi
        exact hmp i c p hi
      · by_cases heq0 : i = evs.length
        · rw [if_neg hlt0, if_pos heq0] at hi; cases hi
        · rw [if_neg hlt0, if_neg heq0] at hi; cases hi
    · by_cases heq1 : i = (evs ++ [Event.endp b.id]).length
      · rw [if_neg hlt1, if_pos heq1] at hi
        injection hi with hi
        injection hi with hc hp
        rw [← hc, ← hp]
        exact hlink.1
      · rw [if_neg hlt1, if_neg heq1] at hi; cases hi

theorem pop_last_inv (pm : List (Option Nat)) (nid : Nat)
    (iOpt : Option Index) (b : Branch) (evs : List Event)
    (hst : StackInvParts pm nid [b])
    (hev : EvInvParts pm nid iOpt [b] evs) :
    EvInvParts pm nid iOpt [] (evs ++ [Event.endp b.id]) := by
  obtain ⟨hlast, hlt, _, _⟩ := hst
  obtain ⟨hsc, hec, hmc, hmp, ho1, ho2, ho3⟩ := hev
  have hblt : b.id < nid := hlt b (List.mem_cons_self _ _)
  have hbmem : b.id ∈ stackIds [b] := stackIds_head_mem b []
  have hb0 : b.id = 0 := by
    rw [List.getLast?_singleton] at hlast
    simp only [Option.map_some'] at hlast
    injection hlast
  have hend_b : endCount b.id evs = 0 := by
    rw [hec b.id, if_neg]
    rintro ⟨_, hnm⟩
    exact hnm hbmem
  have hmerge_b : mergeCount b.id evs = 0 := by
    rw [hmc b.id, if_neg]
    rintro ⟨_, hnm, _⟩
    exact hnm hbmem
  refine ⟨?_, ?_, ?_, ?_, ?_, ?_, ?_⟩
  · intro id
    rw [startCount_append, startCount_one_endp, hsc id]
    simp
  · intro id
    rw [endCount_append, endCount_one_endp, hec id]
    by_cases hid : id = b.id
    · subst hid
      rw [if_neg (show ¬(b.id < nid ∧ b.id ∉ stackIds [b]) from
          by rintro ⟨_, hnm⟩; exact hnm hbmem),
        if_pos (show b.id = b.id from rfl),
        if_pos (show b.id < nid ∧ b.id ∉ stackIds ([] : List Branch) from
          ⟨hblt, fun h => (List.not_mem_nil _) h⟩)]
    · rw [if_neg (show ¬(b.id = id) from fun h => hid h.symm)]
      have hnm2 : id ∉ stackIds [b] := by
        rw [stackIds_cons]
        intro hmem
        rcases List.mem_cons.mp hmem with heq | hmem'
        · exact hid heq
        · exact (List.not_mem_nil _) hmem'
      by_cases hcond : id < nid
      · rw [if_pos (show id < nid ∧ id ∉ stackIds [b] from ⟨hcond, hnm2⟩),
          if_pos (show id < nid ∧ id ∉ stackIds ([] : List Branch) from
            ⟨hcond, fun h => (List.not_mem_nil _) h⟩)]
      · rw [if_neg (show ¬(id < nid ∧ id ∉ stackIds [b]) from
            fun hc => hcond hc.1),
          if_neg (show ¬(id < nid ∧ id ∉ stackIds ([] : List Branch)) from
            fun hc => hcond hc.1)]
  · intro id
    rw [mergeCount_append, mergeCount_one_endp, hmc id]
    by_cases hid : id = b.id
    · subst hid
      rw [if_neg (show ¬(b.id < nid ∧ b.id ∉ stackIds [b] ∧ b.id ≠ 0) from
          by rintro ⟨_, hnm, _⟩; exact hnm hbmem),
        if_neg (show ¬(b.id < nid ∧ b.id ∉ stackIds ([] : List Branch) ∧
            b.id ≠ 0) from by rintro ⟨_, _, h0⟩; exact h0 hb0)]
    · have hnm2 : id ∉ stackIds [b] := by
        rw [stackIds_cons]
        intro hmem
        rcases List.mem_cons.mp hmem with heq | hmem'
        · exact hid heq
        · exact (List.not_mem_nil _) hmem'
      by_cases hcond : id < nid ∧ id ≠ 0
      · rw [if_pos (show id < nid ∧ id ∉ stackIds [b] ∧ id ≠ 0 from
            ⟨hcond.1, hnm2, hcond.2⟩),
          if_pos (show id < nid ∧ id ∉ stackIds ([] : List Branch) ∧
            id ≠ 0 from
            ⟨hcond.1, fun h => (List.not_mem_nil _) h, hcond.2⟩)]
      · rw [if_neg (show ¬(id < nid ∧ id ∉ stackIds [b] ∧ id ≠ 0) from
            fun hc => hcond ⟨hc.1, hc.2.2⟩),
          if_neg (show ¬(id < nid ∧ id ∉ stackIds ([] : List Branch) ∧
            id ≠ 0) from fun hc => hcond ⟨hc.1, hc.2.2⟩)]
  · intro i c p hi
    rw [get?_append_one] at hi
    by_cases hlt0 : i < evs.length
    · rw [if_pos hlt0] at hi
      exact hmp i c p hi
    · by_cases heq0 : i = evs.length
      · rw [if_neg hlt0, if_pos heq0] at hi; cases hi
      · rw [if_neg hlt0, if_neg heq0] at hi; cases hi
  · exact startBeforeEnd_append evs _ ho1 (by intro c idx h; cases h)
  · exact endBeforeMerge_append evs _ ho2
      (by intro c h; injection h with h; rw [← h]; exact hmerge_b)
  · exact mergeBeforeParentEnd_append evs _ ho3 (by intro c p h; cases h)

theorem evInv_append_neutral (pm : List (Option Nat)) (nid : Nat)
    (iOpt : Option Index) (brs : List Branch) (evs : List Event) (e : Event)
    (hstart : ∀ id, startCount id [e] = 0)
    (hend : ∀ id, endCount id [e] = 0)
    (hmerge : ∀ id, mergeCount id [e] = 0)
    (hnotstart : ∀ c idx, e ≠ .start c idx)
    (hnotend : ∀ c, e ≠ .endp c)
    (hnotmerge : ∀ c p, e ≠ .merge c p)
    (h : EvInvParts pm nid iOpt brs evs) :
    EvInvParts pm nid iOpt brs (evs ++ [e]) := by
  obtain ⟨h1, h2, h3, h4, h5, h6, h7⟩ := h
  refine ⟨?_, ?_, ?_, ?_, ?_, ?_, ?_⟩
  · intro id; rw [startCount_append, hstart, h1 id]; simp
  · intro id; rw [endCount_append, hend, h2 id]; simp
  · intro id; rw [mergeCount_append, hmerge, h3 id]; simp
  · intro i c p hi
    rw [get?_append_one] at hi
    by_cases h0 : i < evs.length
    · rw [if_pos h0] at hi; exact h4 i c p hi
    · by_cases h0' : i = evs.length
      · rw [if_neg h0, if_pos h0'] at hi
        injection hi with hi
        exact absurd hi (hnotmerge c p)
      · rw [if_neg h0, if_neg h0'] at hi; cases hi
  · exact startBeforeEnd_append evs e h5
      (fun c idx hcontra => absurd hcontra (hnotstart c idx))
  · exact endBeforeMerge_append evs e h6
      (fun c hcontra => absurd hcontra (hnotend c))
  · exact mergeBeforeParentEnd_append evs e h7
      (fun c p hcontra => absurd hcontra (hnotmerge c p))

theorem evInv_set_index (pm : List (Option Nat)) (nid : Nat) (a b : Index)
    (brs : List Branch) (evs : List Event)
    (h : EvInvParts pm nid (some a) brs evs) :
    EvInvParts pm nid (some b) brs evs := by
  obtain ⟨h1, h2, h3, h4, h5, h6, h7⟩ := h
  refine ⟨?_, h2, h3, h4, h5, h6, h7⟩
  intro id
  rw [h1 id]
  by_cases hn : id < nid
  · rw [if_pos hn, if_pos hn,
      if_neg (show ¬(id = 0 ∧ (some a : Option Index) = none) from
        by rintro ⟨_, hc⟩; cases hc),
      if_neg (show ¬(id = 0 ∧ (some b : Option Index) = none) from
        by rintro ⟨_, hc⟩; cases hc)]
  · rw [if_neg hn, if_neg hn]

theorem evInv_stackIds_congr (pm : List (Option Nat)) (nid : Nat)
    (iOpt : Option Index) (brs brs2 : List Branch) (evs : List Event)
    (hids : stackIds brs2 = stackIds brs)
    (h : EvInvParts pm nid iOpt brs evs) :
    EvInvParts pm nid iOpt brs2 evs := by
  obtain ⟨h1, h2, h3, h4, h5, h6, h7⟩ := h
  refine ⟨h1, ?_, ?_, h4, h5, h6, h7⟩
  · intro id; rw [hids]; exact h2 id
  · intro id; rw [hids]; exact h3 id

theorem stackInv_replace_head (pm : List (Option Nat)) (nid : Nat)
    (last last2 : Branch) (rest : List Branch)
    (hid : last2.id = last.id)
    (h : StackInvParts pm nid (last :: rest)) :
    StackInvParts pm nid (last2 :: rest) := by
  obtain ⟨h1, h2, h3, h4⟩ := h
  refine ⟨?_, ?_, ?_, ?_⟩
  · rcases rest with _ | ⟨nb, rs⟩
    · rw [List.getLast?_singleton] at h1 ⊢
      simp only [Option.map_some'] at h1 ⊢
      rw [hid]
      exact h1
    · rw [List.getLast?_cons_cons] at h1 ⊢
      exact h1
  · intro y hy
    rcases List.mem_cons.mp hy with rfl | hy'
    · rw [hid]; exact h2 last (List.mem_cons_self _ _)
    · exact h2 y (List.mem_cons_of_mem _ hy')
  · rcases rest with _ | ⟨nb, rs⟩
    · exact List.chain'_singleton _
    · rw [List.chain'_cons] at h3 ⊢
      exact ⟨by rw [hid]; exact h3.1, h3.2⟩
  · rcases rest with _ | ⟨nb, rs⟩
    · trivial
    · obtain ⟨hl1, hl2⟩ := h4
      exact ⟨by rw [hid]; exact hl1, hl2⟩

theorem finishBranches_inv (o : HookOracle) (idx : Index)
    (pm : List (Option Nat)) (nid : Nat) (iOpt : Option Index) :
    ∀ (brs : List Branch) (evs : List Event),
      StackInvParts pm nid brs → EvInvParts pm nid iOpt brs evs →
      ∀ brs' evs2, finishBranches o idx brs = .ok brs' evs2 →
      StackInvParts pm nid brs' ∧ EvInvParts pm nid iOpt brs' (evs ++ evs2) := by
  intro brs
  induction brs with
  | nil =>
    intro evs _ _ brs' evs2 h
    rw [finishBranches] at h
    cases h
  | cons b rest ih =>
    intro evs hst hev brs' evs2 h
    rw [finishBranches] at h
    split at h
    · cases h
    · split at h
      · injection h with h1 h2
        subst h1
        subst h2
        rw [List.append_nil]
        exact ⟨hst, hev⟩
      · split at h
        · cases h
        · rename_i nb rs
          split at h
          · cases h
          · cases h
          · rename_i brs2 evs3 hfb
            injection h with h1 h2
            subst h1
            subst h2
            have hpop := pop_inv pm nid iOpt b nb rs evs hst hev
            have hres := ih ((evs ++ [Event.endp b.id]) ++
              [Event.merge b.id nb.id]) hpop.1 hpop.2 brs2 evs3 hfb
            refine ⟨hres.1, ?_⟩
            have heq2 : evs ++ ((callEndProc o b).2 ++
                [Event.merge b.id nb.id] ++ evs3) =
                ((evs ++ [Event.endp b.id]) ++ [Event.merge b.id nb.id]) ++
                  evs3 := by
              rw [callEndProc_events]
              simp [List.append_assoc]
            rw [heq2]
            exact hres.2

theorem finishLoop_inv (o : HookOracle) (pm : List (Option Nat)) (nid : Nat)
    (iOpt : Option Index) :
    ∀ (brs : List Branch) (evs : List Event),
      StackInvParts pm nid brs → EvInvParts pm nid iOpt brs evs →
      ∀ evs2, finishLoop o brs = some evs2 →
      EvInvParts pm nid iOpt [] (evs ++ evs2) := by
  intro brs
  induction brs with
  | nil =>
    intro evs _ _ evs2 h
    rw [finishLoop] at h
    cases h
  | cons b rest ih =>
    intro evs hst hev evs2 h
    rcases rest with _ | ⟨nb, rs⟩
    · rw [finishLoop] at h
      rw [callEndProc_events] at h
      injection h with h1
      subst h1
      exact pop_last_inv pm nid iOpt b evs hst hev
    · rw [finishLoop] at h
      rcases hfl : finishLoop o (nb :: rs) with _ | evs' <;> rw [hfl] at h
      · cases h
      · rw [callEndProc_events] at h
        injection h with h1
        subst h1
        have hpop := pop_inv pm nid iOpt b nb rs evs hst hev
        have hres := ih ((evs ++ [Event.endp b.id]) ++
          [Event.merge b.id nb.id]) hpop.1 hpop.2 evs' hfl
        have heq2 : evs ++ ([Event.endp b.id] ++
            [Event.merge b.id nb.id] ++ evs') =
            ((evs ++ [Event.endp b.id]) ++ [Event.merge b.id nb.id]) ++ evs' := by
          simp [List.append_assoc]
        rw [heq2]
        exact hres

theorem itrCall_inv (o : HookOracle) (s : ITRState) (idx : Index)
    (s' : ITRState) (hinv : ITRInv s)
    (h : itrCall o s idx = some (s', true)) : ITRInv s' := by
  obtain ⟨hpm, hst, hev⟩ := hinv
  rw [itrCall] at h
  split at h
  · -- first call: s.index = none, stack = [root]
    rename_i hix
    split at h
    · rename_i root hbr
      simp only [Option.some.injEq, Prod.mk.injEq] at h
      obtain ⟨h1, -⟩ := h
      subst h1
      rw [hbr] at hst hev
      rw [hix] at hev
      have hr0 : root.id = 0 := by
        have h1 := hst.1
        rw [List.getLast?_singleton] at h1
        simp only [Option.map_some'] at h1
        injection h1
      have hn0 : 0 < s.nextId := by
        have := hst.2.1 root (List.mem_cons_self _ _)
        omega
      have hend_root : endCount root.id s.events = 0 := by
        rw [hev.2.1 root.id, if_neg]
        rintro ⟨_, hnm⟩
        exact hnm (stackIds_head_mem root _)
      refine ⟨hpm, ?_, ?_⟩
      · exact stackInv_replace_head _ _ root _ []
          (processWBranch_id o idx root) hst
      · rw [processWBranch_events]
        have hids : stackIds [(processWBranch o idx root).1] =
            stackIds [root] := by
          rw [stackIds_cons, stackIds_cons, processWBranch_id]
        refine ⟨?_, ?_, ?_, ?_, ?_, ?_, ?_⟩
        · intro id
          rw [startCount_append, startCount_one_start, hev.1 id]
          by_cases hid : id = 0
          · subst hid
            rw [if_pos (show root.id = 0 from hr0),
              if_pos hn0, if_pos ⟨rfl, rfl⟩, if_pos hn0,
              if_neg (show ¬((0 : Nat) = 0 ∧ (some idx : Option Index) =
                none) from by rintro ⟨_, hc⟩; cases hc)]
          · rw [if_neg (show ¬(root.id = id) from
              fun hcc => hid (by rw [← hcc, hr0]))]
            by_cases hlt : id < s.nextId
            · rw [if_pos hlt, if_pos hlt,
                if_neg (show ¬(id = 0 ∧ (none : Option Index) = none) from
                  by rintro ⟨hc, _⟩; exact hid hc),
                if_neg (show ¬(id = 0 ∧ (some idx : Option Index) = none) from
                  by rintro ⟨hc, _⟩; exact hid hc)]
            · rw [if_neg hlt, if_neg hlt]
        · intro id
          dsimp only
          rw [endCount_append, endCount_one_start, hev.2.1 id, hids]
          simp
        · intro id
          dsimp only
          rw [mergeCount_append, mergeCount_one_start, hev.2.2.1 id, hids]
          simp
        · intro i c p hi
          rw [get?_append_one] at hi
          by_cases h0 : i < s.events.length
          · rw [if_pos h0] at hi
            exact hev.2.2.2.1 i c p hi
          · by_cases h0' : i = s.events.length
            · rw [if_neg h0, if_pos h0'] at hi
              cases hi
            · rw [if_neg h0, if_neg h0'] at hi
              cases hi
        · refine startBeforeEnd_append _ _ hev.2.2.2.2.1 ?_
          intro c idx2 hcc
          injection hcc with hcc _
          rw [← hcc]
          exact hend_root
        · exact endBeforeMerge_append _ _ hev.2.2.2.2.2.1
            (by intro c hcc; cases hcc)
        · exact mergeBeforeParentEnd_append _ _ hev.2.2.2.2.2.2
            (by intro c p hcc; cases hcc)
    · cases h
  · -- later calls
    rename_i prev hix
    split at h
    · -- out-of-order warning
      simp only [Option.some.injEq, Prod.mk.injEq] at h
      obtain ⟨h1, -⟩ := h
      subst h1
      refine ⟨hpm, hst, ?_⟩
      exact evInv_append_neutral _ _ _ _ _ _
        (fun id => startCount_one_warn id)
        (fun id => endCount_one_warn id)
        (fun id => mergeCount_one_warn id)
        (by intro c idx2 hc; cases hc)
        (by intro c hc; cases hc)
        (by intro c p hc; cases hc) hev
    · split at h
      · cases h
      · simp at h
      · cases h
      · rename_i last rest evs2 hfb
        have hfbinv := finishBranches_inv o idx s.parentMap s.nextId s.index
          s.branches s.events hst hev (last :: rest) evs2 hfb
        obtain ⟨hst2, hev2⟩ := hfbinv
        rw [hix] at hev2
        have hev3 := evInv_set_index s.parentMap s.nextId prev idx _ _ hev2
        have hlast_lt : last.id < s.nextId :=
          hst2.2.1 last (List.mem_cons_self _ _)
        have hn0 : 0 < s.nextId := by
          rcases hl : (last :: rest).getLast? with _ | lb
          · have := hst2.1
            rw [hl] at this
            cases this
          · have hmap := hst2.1
            rw [hl] at hmap
            simp only [Option.map_some'] at hmap
            injection hmap with hmap
            have := hst2.2.1 lb (getLast?_mem' _ _ hl)
            omega
        have hend_last : endCount last.id (s.events ++ evs2) = 0 := by
          rw [hev3.2.1 last.id, if_neg]
          rintro ⟨_, hnm⟩
          exact hnm (stackIds_head_mem last _)
        split at h
        · split at h
          · -- fast path
            simp only [Option.some.injEq, Prod.mk.injEq] at h
            obtain ⟨h1, -⟩ := h
            subst h1
            refine ⟨hpm, ?_, ?_⟩
            · exact stackInv_replace_head _ _ last _ rest
                (by split <;> rfl) hst2
            · refine evInv_stackIds_congr _ _ _ (last :: rest) _ _
                (by rw [stackIds_cons, stackIds_cons]
                    congr 1
                    split <;> rfl) ?_
              exact evInv_append_neutral _ _ _ _ _ _
                (fun id => startCount_one_fast id last.id idx)
                (fun id => endCount_one_fast id last.id idx)
                (fun id => mergeCount_one_fast id last.id idx)
                (by intro c idx2 hc; cases hc)
                (by intro c hc; cases hc)
                (by intro c p hc; cases hc) hev3
          · -- open a child branch
            simp only [Option.some.injEq, Prod.mk.injEq] at h
            obtain ⟨h1, -⟩ := h
            subst h1
            have hpid : (processWBranch o idx
                ({ id := s.nextId } : Branch)).1.id = s.nextId :=
              processWBranch_id o idx _
            refine ⟨by simp [hpm], ?_, ?_⟩
            · dsimp only
              refine ⟨?_, ?_, ?_, ?_⟩
              · rw [List.getLast?_cons_cons]
                exact hst2.1
              · intro y hy
                rcases List.mem_cons.mp hy with rfl | hy'
                · rw [hpid]; omega
                · have := hst2.2.1 y hy'
                  omega
              · rw [List.chain'_cons]
                refine ⟨by rw [hpid]; exact hlast_lt, hst2.2.2.1⟩
              · refine ⟨?_, ?_⟩
                · rw [hpid, ← hpm, List.get?_concat_length]
                · refine stackLinked_append s.parentMap (some last.id) _
                    ?_ hst2.2.2.2
                  intro y hy
                  rw [hpm]
                  exact hst2.2.1 y hy
            · dsimp only
              rw [processWBranch_events]
              have hids : stackIds ((processWBranch o idx
                  ({ id := s.nextId } : Branch)).1 :: last :: rest) =
                  s.nextId :: stackIds (last :: rest) := by
                rw [stackIds_cons, hpid]
              refine ⟨?_, ?_, ?_, ?_, ?_, ?_, ?_⟩
              · intro id
                rw [startCount_append, startCount_one_start, hev3.1 id]
                dsimp only
                by_cases hid : id = s.nextId
                · subst hid
                  rw [if_neg (show ¬(s.nextId < s.nextId) from by omega),
                    if_pos rfl,
                    if_pos (show s.nextId < s.nextId + 1 from by omega),
                    if_neg (show ¬(s.nextId = 0 ∧ (some idx : Option Index)
                      = none) from by rintro ⟨hc, _⟩; omega)]
                · rw [if_neg (show ¬(s.nextId = id) from
                    fun hcc => hid hcc.symm)]
                  by_cases hlt : id < s.nextId
                  · rw [if_pos hlt,
                      if_pos (show id < s.nextId + 1 from by omega),
                      if_neg (show ¬(id = 0 ∧ (some idx : Option Index) =
                        none) from by rintro ⟨_, hc⟩; cases hc)]
                  · rw [if_neg hlt,
                      if_neg (show ¬(id < s.nextId + 1) from by omega)]
              · intro id
                rw [endCount_append, endCount_one_start, hev3.2.1 id, hids]
                by_cases hid : id = s.nextId
                · subst hid
                  rw [if_neg (show ¬(s.nextId < s.nextId ∧ s.nextId ∉
                      stackIds (last :: rest)) from by
                        rintro ⟨hc, _⟩; omega),
                    if_neg (show ¬(s.nextId < s.nextId + 1 ∧ s.nextId ∉
                      s.nextId :: stackIds (last :: rest)) from by
                        rintro ⟨_, hnm⟩
                        exact hnm (List.mem_cons_self _ _))]
                · by_cases hcond : id < s.nextId ∧ id ∉ stackIds (last :: rest)
                  · rw [if_pos hcond,
                      if_pos (show id < s.nextId + 1 ∧ id ∉ s.nextId ::
                        stackIds (last :: rest) from
                        ⟨by omega, by
                          intro hmem
                          rcases List.mem_cons.mp hmem with heq | hmem'
                          · exact hid heq
                          · exact hcond.2 hmem'⟩)]
                  · rw [if_neg hcond,
                      if_neg (show ¬(id < s.nextId + 1 ∧ id ∉ s.nextId ::
                        stackIds (last :: rest)) from by
                        rintro ⟨hlt2, hnm⟩
                        exact hcond ⟨by omega,
                          fun hm => hnm (List.mem_cons_of_mem _ hm)⟩)]
              · intro id
                rw [mergeCount_append, mergeCount_one_start, hev3.2.2.1 id,
                  hids]
                by_cases hid : id = s.nextId
                · subst hid
                  rw [if_neg (show ¬(s.nextId < s.nextId ∧ s.nextId ∉
                      stackIds (last :: rest) ∧ s.nextId ≠ 0) from by
                        rintro ⟨hc, _⟩; omega),
                    if_neg (show ¬(s.nextId < s.nextId + 1 ∧ s.nextId ∉
                      s.nextId :: stackIds (last :: rest) ∧ s.nextId ≠ 0)
                      from by
                        rintro ⟨_, hnm, _⟩
                        exact hnm (List.mem_cons_self _ _))]
                · by_cases hcond : id < s.nextId ∧
                      id ∉ stackIds (last :: rest) ∧ id ≠ 0
                  · rw [if_pos hcond,
                      if_pos (show id < s.nextId + 1 ∧ id ∉ s.nextId ::
                        stackIds (last :: rest) ∧ id ≠ 0 from
                        ⟨by omega, by
                          intro hmem
                          rcases List.mem_cons.mp hmem with heq | hmem'
                          · exact hid heq
                          · exact hcond.2.1 hmem', hcond.2.2⟩)]
                  · rw [if_neg hcond,
                      if_neg (show ¬(id < s.nextId + 1 ∧ id ∉ s.nextId ::
                        stackIds (last :: rest) ∧ id ≠ 0) from by
                        rintro ⟨hlt2, hnm, h0⟩
                        exact hcond ⟨by omega,
                          fun hm => hnm (List.mem_cons_of_mem _ hm), h0⟩)]
              · intro i c p hi
                rw [get?_append_one] at hi
                by_cases h0 : i < (s.events ++ evs2).length
                · rw [if_pos h0] at hi
                  have hold := hev3.2.2.2.1 i c p hi
                  have hclt : c < s.parentMap.length := by
                    rcases List.get?_eq_some.mp hold with ⟨hlt2, _⟩
                    exact hlt2
                  rw [List.get?_append hclt]
                  exact hold
                · by_cases h0' : i = (s.events ++ evs2).length
                  · rw [if_neg h0, if_pos h0'] at hi
                    cases hi
                  · rw [if_neg h0, if_neg h0'] at hi
                    cases hi
              · refine startBeforeEnd_append _ _ hev3.2.2.2.2.1 ?_
                intro c idx2 hcc
                injection hcc with hcc _
                rw [← hcc]
                dsimp only
                rw [hev3.2.1 s.nextId, if_neg]
                rintro ⟨hc, _⟩
                omega
              · exact endBeforeMerge_append _ _ hev3.2.2.2.2.2.1
                  (by intro c hcc; cases hcc)
              · exact mergeBeforeParentEnd_append _ _ hev3.2.2.2.2.2.2
                  (by intro c p hcc; cases hcc)
        · -- faulted branch: log_prev_error
          simp only [Option.some.injEq, Prod.mk.injEq] at h
          obtain ⟨h1, -⟩ := h
          subst h1
          refine ⟨hpm, hst2, ?_⟩
          exact evInv_append_neutral _ _ _ _ _ _
            (fun id => startCount_one_skip id last.id idx)
            (fun id => endCount_one_skip id last.id idx)
            (fun id => mergeCount_one_skip id last.id idx)
            (by intro c idx2 hc; cases hc)
            (by intro c hc; cases hc)
            (by intro c p hc; cases hc) hev3

theorem itrInit_inv : ITRInv itrInit := by
  dsimp only [ITRInv, itrInit]
  refine ⟨rfl, ⟨rfl, ?_, ?_, trivial⟩, ?_, ?_, ?_, ?_, ?_, ?_, ?_⟩
  · intro b hb
    rcases List.mem_cons.mp hb with rfl | hb'
    · exact Nat.zero_lt_one
    · cases hb'
  · exact List.chain'_singleton _
  · intro id
    rw [startCount, List.countP_nil]
    by_cases h : id < 1
    · have h0 : id = 0 := by omega
      rw [if_pos h, if_pos ⟨h0, rfl⟩]
    · rw [if_neg h]
  · intro id
    rw [endCount, List.countP_nil, if_neg]
    rintro ⟨h1, h2⟩
    have h0 : id = 0 := by omega
    rw [h0] at h2
    exact h2 (stackIds_head_mem _ _)
  · intro id
    rw [mergeCount, List.countP_nil, if_neg]
    rintro ⟨h1, h2, _⟩
    have h0 : id = 0 := by omega
    rw [h0] at h2
    exact h2 (stackIds_head_mem _ _)
  · intro i c p hi
    cases hi
  · intro i j c idx h1 _
    cases h1
  · intro i j c p h1 _
    cases h1
  · intro i j c p h1 _
    cases h1

theorem itrSteps_inv (o : HookOracle) :
    ∀ (idxs : List Index) (s s' : ITRState), ITRInv s →
      itrSteps o s idxs = some s' → ITRInv s' := by
  intro idxs
  induction idxs with
  | nil =>
    intro s s' hinv h
    rw [itrSteps] at h
    injection h with h1
    subst h1
    exact hinv
  | cons i is ih =>
    intro s s' hinv h
    rw [itrSteps] at h
    rcases hc : itrCall o s i with _ | ⟨s1, b⟩ <;> rw [hc] at h
    · cases h
    · rcases b with _ | _
      · cases h
      · exact ih s1 s' (itrCall_inv o s i s1 hinv hc) h

theorem finishITR_postorder (o : HookOracle) (s : ITRState) (s' : ITRState)
    (hinv : ITRInv s) (h : finishITR o s = some s') : PostOrderOK s' := by
  obtain ⟨hpm, hst, hev⟩ := hinv
  rw [finishITR] at h
  rcases hfl : finishLoop o s.branches with _ | evs2 <;> rw [hfl] at h
  · cases h
  · injection h with h1
    subst h1
    have hfin := finishLoop_inv o s.parentMap s.nextId s.index s.branches
      s.events hst hev evs2 hfl
    obtain ⟨hsc, hec, hmc, hmp, ho1, ho2, ho3⟩ := hfin
    have hnil : ∀ id : Nat, id ∉ stackIds ([] : List Branch) :=
      fun id hm => (List.not_mem_nil id) hm
    refine ⟨?_, ?_, ?_, ?_, ?_, ?_, ho1, ho2, ho3⟩
    · intro id
      rw [hsc id]
      split
      · split <;> omega
      · omega
    · intro id
      rw [hec id]
      split <;> omega
    · intro id h1
      rw [hsc id] at h1
      rw [hec id]
      by_cases hlt : id < s.nextId
      · rw [if_pos ⟨hlt, hnil id⟩]
      · rw [if_neg hlt] at h1
        omega
    · intro id h0 h1
      rw [hec id] at h1
      rw [hmc id]
      by_cases hlt : id < s.nextId
      · rw [if_pos ⟨hlt, hnil id, h0⟩]
      · rw [if_neg (show ¬(id < s.nextId ∧ id ∉ stackIds
          ([] : List Branch)) from fun hc => hlt hc.1)] at h1
        omega
    · rw [hmc 0, if_neg]
      rintro ⟨_, _, h0⟩
      exact h0 rfl
    · exact hmp

/-- C1: for every strictly increasing sequence of indices fed one at a
time to the tree reducer's per-entry call and followed by one `Finish`
call (a protocol that completes normally, i.e. `itrRun` returns a final
state), and for every caller-supplied branch class (modelled by the hook
oracle): every branch that was opened receives exactly one
`start_process` and exactly one `end_process`; every finished branch
except the outermost (the root, id 0) is passed exactly once to its
creation parent's `branch_process`; and the hook order is a valid
post-order traversal — each start precedes its branch's end, each child's
end precedes its merge, and each merge into a parent precedes that
parent's end. -/
theorem itrRun_postorder (o : HookOracle) (idxs : List Index)
    (hsorted : IdxSorted idxs) (fin : ITRState)
    (hrun : itrRun o idxs = some fin) : PostOrderOK fin := by
  rw [itrRun] at hrun
  rcases hs : itrSteps o itrInit idxs with _ | smid <;> rw [hs] at hrun
  · cases hrun
  · exact finishITR_postorder o smid fin
      (itrSteps_inv o idxs itrInit smid itrInit_inv hs) hrun

theorem itrRun_postorder_witness :
    IdxSorted c1Idxs ∧ itrRun noopOracle c1Idxs = some c1Fin ∧
      PostOrderOK c1Fin :=
  ⟨by decide, by decide,
    itrRun_postorder noopOracle c1Idxs (by decide) c1Fin (by decide)⟩

end Duplicity
